import Mathlib

/-!
Verification of the trans_helper repository (Zusi/PO translation helper).

Python strings are embedded as `List Char`; Python `str` methods used by the
program (`strip`, `split(sep, 1)`, `find`, `replace`, slicing, `in`) are
embedded as executable list functions below.  The authoritative source file is
`src/trans_helper/translation_helper.py`; the `munkres` assignment solver it
imports is not part of the sources and is modelled from the specification.
-/

namespace TransHelper

/-- Python strings as lists of characters. -/
abbrev Str := List Char

/-- Python `str.strip(chars)`: remove all leading and all trailing characters
satisfying `p`. -/
def pyStrip (p : Char → Bool) (l : Str) : Str :=
  List.rdropWhile p (List.dropWhile p l)

/-- Characters stripped by Python `strip("\r\n")`. -/
def crlfP (c : Char) : Bool := c = '\r' || c = '\n'

/-- The space character test used by `strip(" ")` / `lstrip(" ")` / `rstrip(" ")`. -/
def spaceP (c : Char) : Bool := c = ' '

/-- The single-quote test used by `strip("'")`. -/
def quoteP (c : Char) : Bool := c = '\''

/-- ASCII whitespace stripped by Python's default `str.strip()`. -/
def wsP (c : Char) : Bool :=
  c = ' ' || c = '\t' || c = '\n' || c = '\r' || c = '\x0b' || c = '\x0c'

/-- Python `str.split(sep, 1)` for a record line: `some (before, after)` at the
first occurrence of `sep`, `none` when `sep` does not occur (the `ValueError`
case of the tuple unpacking in `read_from_zusi`). -/
def splitFirst (sep : Str) : Str → Option (Str × Str)
  | [] => if sep.isPrefixOf ([] : Str) then some ([], []) else none
  | c :: rest =>
    if sep.isPrefixOf (c :: rest) then some ([], (c :: rest).drop sep.length)
    else (splitFirst sep rest).map (fun p => (c :: p.1, p.2))

/-- Python substring containment `sub in s` (for strings). -/
def containsSub (sub : Str) : Str → Bool
  | [] => sub.isEmpty
  | c :: rest => sub.isPrefixOf (c :: rest) || containsSub sub rest

/-- The scan of Python `str.replace(pat, rep)`, driven by a fuel argument so
that the recursion is structural: every step consumes at least one character,
so fuel equal to the input length always suffices. -/
def pyReplaceFuel (pat rep : Str) : Nat → Str → Str
  | 0, l => l
  | _ + 1, [] => []
  | fuel + 1, c :: rest =>
    if pat ≠ [] ∧ pat.isPrefixOf (c :: rest) then
      rep ++ pyReplaceFuel pat rep fuel ((c :: rest).drop pat.length)
    else
      c :: pyReplaceFuel pat rep fuel rest

/-- Python `str.replace(pat, rep)` (used by `escape_po` / `unescape_po`). -/
def pyReplace (pat rep : Str) (l : Str) : Str :=
  pyReplaceFuel pat rep l.length l

/-- Python `str.lower()` on the ASCII fragment (per the spec the tool does not
attempt casing beyond ASCII letter folding). -/
def lowerStr (s : Str) : Str := s.map Char.toLower

/-- All indices of `c` in `l`, in increasing order.  This is the occurrence
list produced by the repeated `str.find(char, start+1)` loops of
`get_min_shortcut_weight` and `add_shortcut`. -/
def occurrences (c : Char) (l : Str) : List Nat :=
  (List.range l.length).filter (fun i => l.get? i = some c)

/-- The Python value stored in a `TranslationEntry.context` field: every parsed
entry carries a string, but `get_empty_string_entry` passes the Python constant
`False` positionally into the `context` slot.  Equality mirrors Python `==`
(`False == s` is false for every string `s`). -/
inductive PyCtx where
  | s : Str → PyCtx
  | fls : PyCtx
deriving DecidableEq, Repr

/-- Errors raised by the embedded code.  `translationError` is the program's
`TranslationException`; the others are Python runtime errors that specific
code paths provoke. -/
inductive PyError where
  | translationError : Str → PyError
  | attributeError : PyError
  | typeError : PyError
  | indexError : PyError
  | runtimeError : PyError
deriving DecidableEq, Repr

/-- `TranslationEntry` (translation_helper.py, lines 16-32).  The constructor
fields; `src_value` is the extra attribute assigned only inside
`read_from_po`'s blank-line flush (`none` models the attribute being absent,
which makes a later Python access raise `AttributeError`). -/
structure TranslationEntry where
  key : Str
  value : Str
  source_value : Str
  context : PyCtx
  leftquote : Bool
  rightquote : Bool
  leftspaces : Nat
  rightspaces : Nat
  src_value : Option Str
deriving DecidableEq, Repr

/-- `get_empty_string_entry` (line 295): `TranslationEntry("", "", "", False,
False, 0, 0)` — positionally `context = False`, `leftquote = False`,
`rightquote = 0` (falsy), `leftspaces = 0`, `rightspaces = 0`. -/
def get_empty_string_entry : TranslationEntry :=
  ⟨[], [], [], PyCtx.fls, false, false, 0, 0, none⟩

/-- `TranslationFile` (lines 34-47).  `entries` is a `defaultdict(set)` of
objects without `__eq__`/`__hash__`, so the set stores object identities; every
`append` in the program inserts a freshly allocated object, hence the set under
a key holds exactly the appended entries with that key.  We therefore keep only
the authoritative `entries_in_order` list and derive the per-key collection. -/
structure TranslationFile where
  entries_in_order : List TranslationEntry
deriving DecidableEq, Repr

/-- The contents of `entries[key]`: all appended entries with that key (each a
distinct Python object, so none are collapsed by the set). -/
def TranslationFile.entriesAt (tf : TranslationFile) (k : Str) : List TranslationEntry :=
  tf.entries_in_order.filter (fun e => e.key = k)

/-- `TranslationFile.append` (lines 45-47). -/
def TranslationFile.append (tf : TranslationFile) (e : TranslationEntry) : TranslationFile :=
  ⟨tf.entries_in_order ++ [e]⟩

/-- Python's `re.sub(r'(?<!&)&(?!&)', '', value)` from `read_from_zusi`:
delete every `&` that is neither preceded nor followed by another `&`
(lookaround evaluated on the original string). -/
def stripSingleAmps (l : Str) : Str :=
  (l.enum.filter (fun ic =>
    !(ic.2 = '&' && !(decide (l.get? (ic.1 - 1) = some '&') && decide (0 < ic.1))
        && !(l.get? (ic.1 + 1) = some '&')))).map Prod.snd

/-- One iteration of `read_from_zusi`'s loop body (lines 50-67): parse a single
Zusi line; `none` when the `" = "` separator is absent (the line is skipped).
`contexts` is the key-to-context table (`contexts[key]` with `KeyError`
fallback to `''`). -/
def read_zusi_line (contexts : Str → Option Str) (strip_shortcuts : Bool)
    (line : Str) : Option TranslationEntry :=
  match splitFirst (" = ".toList) (pyStrip crlfP line) with
  | none => none
  | some (key, v) =>
    let leftspaces := v.length - (v.dropWhile spaceP).length
    let rightspaces := v.length - (List.rdropWhile spaceP v).length
    let v1 := pyStrip spaceP v
    let leftquote := decide (v1 ≠ []) && decide (v1.head? = some '\'')
    let rightquote := decide (1 < v1.length) && decide (v1.getLast? = some '\'')
    let v2 := pyStrip quoteP v1
    let v3 := if strip_shortcuts &&
        (containsSub ("Caption".toList) key || containsSub ("Text".toList) key) then
        stripSingleAmps v2
      else v2
    let context := match contexts key with
      | some ctx => ctx
      | none => []
    some ⟨key, v3, v3, PyCtx.s context, leftquote, rightquote, leftspaces, rightspaces, none⟩

/-- `read_from_zusi` (lines 49-69) applied to a starting file. -/
def TranslationFile.read_from_zusi (tf : TranslationFile) (contexts : Str → Option Str)
    (strip_shortcuts : Bool) (lines : List Str) : TranslationFile :=
  lines.foldl (fun acc line =>
    match read_zusi_line contexts strip_shortcuts line with
    | none => acc
    | some e => acc.append e) tf

/-- An empty `TranslationFile()`. -/
def emptyFile : TranslationFile := ⟨[]⟩

/-- The context table when no context files are given (empty dict). -/
def noContexts : Str → Option Str := fun _ => none

/-- `escape_po` (lines 282-283). -/
def escape_po (s : Str) : Str := pyReplace ("\"".toList) ("\\\"".toList) s

/-- `unescape_po` (lines 285-286). -/
def unescape_po (s : Str) : Str := pyReplace ("\\\"".toList) ("\"".toList) s

/-- The mutable block state of `read_from_po` (lines 71-117): current mode
(`MODE_MSGID = 1`, `MODE_MSGSTR = 2`, `MODE_MSGCTXT = 3`, idle `0`), the three
string accumulators and the indices (into `entries_in_order`) of the entries
under construction for the current block. -/
structure PoState where
  mode : Nat
  msgid : Str
  ctxt : Str
  value : Str
  under_construction : List Nat
deriving DecidableEq, Repr

/-- The initial/reset `read_from_po` state. -/
def poInit : PoState := ⟨0, [], [], [], []⟩

/-- Map over a list together with the position of each element (starting at
`start`). -/
def mapFromIdx {α β : Type} (f : Nat → α → β) : List α → Nat → List β
  | [], _ => []
  | a :: as, i => f i a :: mapFromIdx f as (i + 1)

/-- The blank-line flush of `read_from_po`: assign the block's context and
value to every entry under construction.  The mid-file flush (line 109-112)
also sets the `src_value` attribute; the end-of-file flush (lines 120-123)
does not, which `setSrc` records. -/
def poFlush (setSrc : Bool) (st : PoState) (entries : List TranslationEntry) :
    List TranslationEntry :=
  mapFromIdx (fun i e =>
    if i ∈ st.under_construction then
      { e with context := PyCtx.s st.ctxt, value := st.value,
               src_value := if setSrc then some st.msgid else e.src_value }
    else e) entries 0

/-- One iteration of `read_from_po`'s loop body (lines 82-117). -/
def po_line_step (fs : TranslationFile × PoState) (line : Str) :
    TranslationFile × PoState :=
  let file := fs.1
  let st := fs.2
  let l := pyStrip crlfP line
  if ("#".toList).isPrefixOf l then
    if ("#. :src:".toList).isPrefixOf l then
      let e : TranslationEntry := ⟨l.drop 9, [], [], PyCtx.s [], false, false, 0, 0, none⟩
      (file.append e,
       { st with under_construction :=
           st.under_construction ++ [file.entries_in_order.length] })
    else (file, st)
  else if ("msgid".toList).isPrefixOf l then
    (file, { st with msgid := unescape_po ((l.drop 7).dropLast), mode := 1 })
  else if ("msgctxt".toList).isPrefixOf l then
    (file, { st with ctxt := unescape_po ((l.drop 9).dropLast), mode := 3 })
  else if ("msgstr".toList).isPrefixOf l then
    (file, { st with value := unescape_po ((l.drop 8).dropLast), mode := 2 })
  else if ("\"".toList).isPrefixOf l then
    let s := unescape_po ((l.drop 1).dropLast)
    if st.mode = 1 then (file, { st with msgid := st.msgid ++ s })
    else if st.mode = 3 then (file, { st with ctxt := st.ctxt ++ s })
    else if st.mode = 2 then (file, { st with value := st.value ++ s })
    else (file, st)
  else if l = [] then
    if st.msgid ≠ [] then (⟨poFlush true st file.entries_in_order⟩, poInit)
    else (file, poInit)
  else (file, st)

/-- `read_from_po` (lines 71-125), including the end-of-file flush that omits
the `src_value` assignment. -/
def TranslationFile.read_from_po (tf : TranslationFile) (lines : List Str) :
    TranslationFile :=
  let fs := lines.foldl po_line_step (tf, poInit)
  if fs.2.msgid ≠ [] then ⟨poFlush false fs.2 fs.1.entries_in_order⟩ else fs.1

/-- Association-list update with Python-dict overwrite semantics: replace the
value in place when the key is present (keys are unique by construction),
append otherwise. -/
def adictSet {κ β : Type} [DecidableEq κ] : List (κ × β) → κ → β → List (κ × β)
  | [], k, v => [(k, v)]
  | p :: rest, k, v =>
    if p.1 = k then (k, v) :: rest else p :: adictSet rest k v

/-- Association-list lookup (`d[k]` / `k in d`). -/
def adictFind {κ β : Type} [DecidableEq κ] (d : List (κ × β)) (k : κ) : Option β :=
  (d.find? (fun p => p.1 = k)).map (fun p => p.2)

/-- Association-list deletion (`del d[k]`). -/
def adictRemove {κ β : Type} [DecidableEq κ] (d : List (κ × β)) (k : κ) :
    List (κ × β) :=
  d.filter (fun p => p.1 ≠ k)

/-- The dict comprehension of `get_translated_entry` (line 141): a dict keyed
by `e.value`, later entries overwriting earlier ones. -/
def buildValueDict (es : List TranslationEntry) : List (Str × TranslationEntry) :=
  es.foldl (fun d e => adictSet d e.value e) []

/-- The `"Key '%s' not found in PO file (original text: '%s')"` message. -/
def keyNotFoundMsg (key val : Str) : Str :=
  "Key '".toList ++ key ++ "' not found in PO file (original text: '".toList ++
    val ++ "')".toList

/-- The `"Ambiguous translation for key '%s', original text '%s': %s"` message
with the `%s` join over the filtered dict.  Iterating a Python dict yields its
keys — strings here — so the comprehension's `e.value` raises
`AttributeError` whenever the dict is non-empty; the join argument is
therefore only ever the empty string. -/
def ambiguousMsg (key val : Str) : Str :=
  "Ambiguous translation for key '".toList ++ key ++ "', original text '".toList ++
    val ++ "': ".toList

/-- `get_translated_entry` (lines 127-147).  Accessing `e.src_value` on an
entry that never went through the mid-file PO flush raises `AttributeError`
(the attribute does not exist), as does formatting the ambiguity message over
a non-empty dict (its iteration yields strings, and `str` has no `value`). -/
def TranslationFile.get_translated_entry (tf : TranslationFile)
    (master : TranslationEntry) : Except PyError TranslationEntry :=
  if master.value.length = 0 then .ok get_empty_string_entry
  else
    let key := pyStrip wsP master.key
    match tf.entriesAt key with
    | [] => .error (.translationError (keyNotFoundMsg key master.value))
    | [e] => .ok e
    | e :: e' :: rest =>
      let values := e :: e' :: rest
      if values.all (fun a => a.src_value.isSome) then
        let matching := values.filter (fun a => a.src_value = some master.value)
        match buildValueDict matching with
        | [kv] => .ok kv.2
        | [] => .error (.translationError (ambiguousMsg key master.value))
        | _ => .error .attributeError
      else .error .attributeError

/-- `get_shortcut` (lines 165-172), transliterated from the `str.find` loop:
the loop visits every `&` position in increasing order (after seeing `&&` it
continues the search at the second `&`), returning the lowercased successor of
the first visited `&` that has a successor different from `&`. -/
def get_shortcut : Str → Option Char
  | [] => none
  | [_] => none
  | a :: b :: rest =>
    if a = '&' then
      if b ≠ '&' then some b.toLower else get_shortcut (b :: rest)
    else get_shortcut (b :: rest)

/-- The amended reading of the shortcut-detection sentence: the first index
`i` with `s[i] = '&'` and `s[i+1] ≠ '&'` yields `s[i+1]` lowercased; pairs of
adjacent characters are exactly `s.zip s.tail`. -/
def first_marker_spec (s : Str) : Option Char :=
  ((s.zip s.tail).find? (fun p => p.1 = '&' && p.2 ≠ '&')).map
    (fun p => p.2.toLower)

/-- The lowercase ASCII alphabet literal of `get_shortcut_weight`. -/
def alphabetStr : Str := "abcdefghijklmnopqrstuvwxyz".toList

/-- `get_shortcut_weight` (lines 174-191).  `source`/`existing` model the
`source_shortcut`/`existing_shortcut` arguments: `none` stands for the default
`''` (or `None`), for which the special-source test `'' not in alphabet` is
false (the empty string is a substring of everything) and the one-character
comparisons with `''`/`None` are false.  All four base values are at least
500, so the single `- 500` never underflows in `Nat`. -/
def get_shortcut_weight (s : Str) (pos : Nat) (source existing : Option Char) :
    Nat :=
  let c := s.getD pos ' '
  let base :=
    if pos = 0 || decide (s.getD (pos - 1) ' ' ∈ " -_+".toList) then
      (if c.toUpper = c then 500 else 600)
    else
      (if c.toUpper = c then 700 else 800)
  let r1 := match source with
    | some sc => if sc ∉ alphabetStr ∧ c.toLower = sc then base - 500 else base
    | none => base
  let srcList : Str := match source with
    | some sc => [sc]
    | none => []
  let r2 := if c.toLower ∈ alphabetStr ++ srcList then r1 else r1 + 500
  let r3 := match existing with
    | some ec => if c.toLower = ec then 0 else r2
    | none => r2
  r3 + pos / 10

/-- `get_min_shortcut_weight` (lines 193-199): `9999` when the character does
not occur, else the minimum weight over all occurrence positions. -/
def get_min_shortcut_weight (s : Str) (c : Char) (source existing : Option Char) :
    Nat :=
  match occurrences c s with
  | [] => 9999
  | p :: ps =>
    ps.foldl (fun m q => Nat.min m (get_shortcut_weight s q source existing))
      (get_shortcut_weight s p source existing)

/-- The scanning loop of `add_shortcut` (lines 206-215): fold over the
occurrence positions, adopting a position exactly when its weight is strictly
below the running minimum (initially `9999`, position initially `-1`, here
`none`). -/
def scanMin (s : Str) : List Nat → Nat → Option Nat → Option Nat
  | [], _, pos => pos
  | p :: ps, minw, pos =>
    if get_shortcut_weight s p none none < minw then
      scanMin s ps (get_shortcut_weight s p none none) (some p)
    else scanMin s ps minw pos

/-- `add_shortcut` (lines 201-219): occurrences are searched in the lowercased
string, weights are evaluated on the original string with default (empty)
source and existing shortcuts; `none` models the raised `Exception` when no
position was adopted. -/
def add_shortcut (s : Str) (c : Char) : Option Str :=
  match scanMin s (occurrences c (lowerStr s)) 9999 none with
  | none => none
  | some p => some (s.take p ++ '&' :: s.drop p)

/-- All ways to insert an element into a list (used to enumerate
permutations). -/
def insertsOf {α : Type} (a : α) : List α → List (List α)
  | [] => [[a]]
  | b :: t => (a :: b :: t) :: (insertsOf a t).map (fun l => b :: l)

/-- All permutations of a list, by repeated insertion.  A structural
enumeration used by the modelled assignment solver. -/
def permsOf {α : Type} : List α → List (List α)
  | [] => [[]]
  | a :: t => (permsOf t).flatMap (insertsOf a)

/-- First element of the list attaining the minimal `f`-value (deterministic
tie-break towards the front). -/
def chooseMinBy {α : Type} (f : α → Nat) : List α → Option α
  | [] => none
  | x :: xs =>
    match chooseMinBy f xs with
    | none => some x
    | some y => if f x ≤ f y then some x else some y

/-- Modelled from the spec: the `munkres` assignment solver imported by
`generate_shortcuts` is not among the repository sources.  Per §4.6 it is a
minimum-cost bipartite matching over a rectangular non-negative cost matrix
(rows are candidates, columns are letters), conceptually padded with zero-cost
dummy entries to a square matrix so a perfect matching exists, returning one
`(row, column)` pair per row with pairings involving dummies discarded, with a
deterministic tie-break.  This model enumerates the permutations of the padded
square (via the structural `permsOf`) and keeps the first one of minimal total
cost. -/
def munkresCompute (matrix : List (List Nat)) : List (Nat × Nat) :=
  let rows := matrix.length
  let cols := ((matrix.head?).map List.length).getD 0
  let n := max rows cols
  let cost : Nat → Nat → Nat := fun i j =>
    if i < rows ∧ j < cols then (matrix.getD i []).getD j 0 else 0
  let total : List Nat → Nat := fun sg =>
    ((List.range n).map (fun i => cost i (sg.getD i 0))).sum
  match chooseMinBy total (permsOf (List.range n)) with
  | none => []
  | some sg =>
    (List.range rows).filterMap (fun i =>
      let j := sg.getD i 0
      if j < cols then some (i, j) else none)

/-- A candidate of `generate_shortcuts`' first group loop: the tuple
`(translated entry, source shortcut, existing shortcut)` of line 254. -/
abbrev ShortcutCand := TranslationEntry × Char × Option Char

/-- The candidate-collection loop of `generate_shortcuts` (lines 239-257):
keys whose name contains `Caption` or `Text` and that exist in the master
file, restricted to master entries whose value carries a shortcut marker.  The
existing-translation lookup swallows only `TranslationException`
(`except TranslationException: pass`); other errors propagate, as does any
error of the translation-file lookup.  Python iterates the key set and the
per-key entry set in unspecified order; the embedding receives the group as a
list and uses insertion order for `entries[key]`. -/
def candidates_of_group (mf tf et : TranslationFile) (g : List Str) :
    Except PyError (List ShortcutCand) :=
  g.foldlM (fun acc key =>
    if (!containsSub ("Caption".toList) key && !containsSub ("Text".toList) key)
        || (mf.entriesAt key).isEmpty then pure acc
    else
      (mf.entriesAt key).foldlM (fun acc2 me =>
        match get_shortcut me.value with
        | none => pure acc2
        | some src =>
          match tf.get_translated_entry me with
          | .error e => .error e
          | .ok tr =>
            match et.get_translated_entry me with
            | .ok e2 => pure (acc2 ++ [(tr, src, get_shortcut e2.value)])
            | .error (.translationError _) => pure (acc2 ++ [(tr, src, (none : Option Char))])
            | .error e => .error e) acc) []

/-- The letter universe of a group (lines 238, 255-257, 262): all non-space
characters of the candidates' lowercased translated values, as a sorted
duplicate-free list (`sorted` over a Python set). -/
def letterset_of (cands : List ShortcutCand) : List Char :=
  List.insertionSort (fun a b => a ≤ b)
    ((cands.foldl (fun l c => l ++ (lowerStr c.1.value).filter (fun ch => ch ≠ ' ')) []).dedup)

/-- The cost matrix of a group (lines 264-266). -/
def matrix_of (cands : List ShortcutCand) (letters : List Char) :
    List (List Nat) :=
  cands.map (fun cand =>
    letters.map (fun c =>
      get_min_shortcut_weight (lowerStr cand.1.value) c (some cand.2.1) cand.2.2))

/-- The `"No conflict-free shortcut could be found for %s (translation of key
%s)"` message of line 276. -/
def noConflictMsg (e : TranslationEntry) : Str :=
  "No conflict-free shortcut could be found for ".toList ++ e.value ++
    " (translation of key ".toList ++ e.key ++ ")".toList

/-- `matrix[i][j]` as a total lookup. -/
def matrixAt (m : List (List Nat)) (ij : Nat × Nat) : Option Nat :=
  (m.get? ij.1).bind (fun row => row.get? ij.2)

/-- The body of the `for (entry_idx, letter_idx) in indexes` loop (lines
272-278): look up the candidate, letter and assigned cost, abort with a
`TranslationException` on cost 9999 (out-of-range indices would be a Python
`IndexError`), otherwise record the pair. -/
def assignStep (cands : List ShortcutCand) (letters : List Char)
    (matrix : List (List Nat)) (acc : List (TranslationEntry × Char))
    (ij : Nat × Nat) : Except PyError (List (TranslationEntry × Char)) :=
  match cands.get? ij.1, letters.get? ij.2, matrixAt matrix ij with
  | some cand, some letter, some cost =>
    if cost = 9999 then .error (.translationError (noConflictMsg cand.1))
    else .ok (acc ++ [(cand.1, letter)])
  | _, _, _ => .error .indexError

/-- One group of `generate_shortcuts`' main loop (lines 234-278), producing
the `(entry, assigned letter)` pairs of the group: solve the assignment
problem and abort as soon as an assigned cost is `9999`. -/
def group_assignments (mf tf et : TranslationFile) (g : List Str) :
    Except PyError (List (TranslationEntry × Char)) := do
  let cands ← candidates_of_group mf tf et g
  if cands.isEmpty then pure []
  else
    let letters := letterset_of cands
    let matrix := matrix_of cands letters
    (munkresCompute matrix).foldlM (assignStep cands letters matrix) []

/-- One iteration of the outer group loop: compute the group's assignments
and write them into the result dict (`result[entry.key] = letter`). -/
def groupStep (mf tf et : TranslationFile) (res : List (Str × Char))
    (g : List Str) : Except PyError (List (Str × Char)) := do
  let asg ← group_assignments mf tf et g
  pure (asg.foldl (fun r p => adictSet r p.1.key p.2) res)

/-- `generate_shortcuts` (lines 221-280): process every group, accumulating
the `result[entry.key] = letterset[letter_idx]` dict writes. -/
def generate_shortcuts (mf tf et : TranslationFile) (groups : List (List Str)) :
    Except PyError (List (Str × Char)) :=
  groups.foldlM (groupStep mf tf et) []

/-- An arbitrary candidate, used only as the default of total lookups in
theorem statements (never reached on valid indices). -/
def dummyCand : ShortcutCand := (get_empty_string_entry, 'a', none)

/-- Python `str(context)` for the report lines (`str(False) = "False"`). -/
def pyStrOfCtx : PyCtx → Str
  | PyCtx.s v => v
  | PyCtx.fls => "False".toList

/-- The `(entry.value, entry.context)` grouping key of line 350. -/
def byValueKey (e : TranslationEntry) : Str × PyCtx := (e.value, e.context)

/-- `master_entries_by_value` (lines 348-350): a dict from `(value, context)`
to the list of master entries with that pair, in file order.  It is built
BEFORE the synthetic empty entry is inserted into `entries_in_order`. -/
def buildByValue (masters : List TranslationEntry) :
    List ((Str × PyCtx) × List TranslationEntry) :=
  masters.foldl (fun d e =>
    let k := byValueKey e
    if d.any (fun p => p.1 = k) then
      d.map (fun p => if p.1 = k then (p.1, p.2 ++ [e]) else p)
    else d ++ [(k, [e])]) []

/-- The literal header metadata line written for the empty key (line 398):
`"Content-Type: text/plain; charset=UTF-8\n"` including the surrounding quote
characters and the two-character `\n` escape. -/
def contentTypeLine : Str :=
  "\"Content-Type: text/plain; charset=UTF-8\\n\"".toList

/-- A whole-run outcome: either the Python exception kind, or the
`sys.exit(3)` of the PO-export ambiguity report (line 395) carrying the lines
printed before exiting. -/
inductive RunError where
  | py : PyError → RunError
  | exitCode : Nat → List Str → RunError
deriving DecidableEq, Repr

/-- The block-emission loop of `TranslationHelper.main` for mode `zusi2pot`
(lines 346-400): iterate the synthetic empty entry followed by the master
entries; skip entries whose `(value, context)` key is absent from the
grouping dict (`continue`, line 361); otherwise emit the block and delete the
key.  Each output line is one `outfile.write` without its trailing line
separator.  `len(master_entry.context)` on the Python constant `False` would
raise `TypeError`. -/
def zusi2pot_lines (masters : List TranslationEntry) : Except RunError (List Str) :=
  let seq := get_empty_string_entry :: masters
  let run : Except RunError (List ((Str × PyCtx) × List TranslationEntry) × List Str) :=
    seq.foldlM (fun st me => do
    let d := st.1
    let out := st.2
    match adictFind d (byValueKey me) with
    | none => pure (d, out)
    | some all_entries =>
      if all_entries.isEmpty then throw (RunError.py .runtimeError)
      else
        let d2 := adictRemove d (byValueKey me)
        match me.context with
        | PyCtx.fls => throw (RunError.py .typeError)
        | PyCtx.s ctx =>
          let ls := (all_entries.map (fun (a : TranslationEntry) => "#. :src: ".toList ++ a.key))
            ++ (if ctx.length ≠ 0 then
                  ["msgctxt \"".toList ++ escape_po ctx ++ "\"".toList] else [])
            ++ ["msgid \"".toList ++ escape_po me.value ++ "\"".toList]
            ++ ["msgstr \"\"".toList]
            ++ (if me.key = [] then [contentTypeLine] else [])
            ++ [[]]
          pure (d2, out ++ ls)) (buildByValue masters, [])
  run.map (fun st => st.2)

/-- Python `entry.key in existing_translation`: `TranslationFile` defines
`__iter__` but neither `__contains__` nor `__eq__` on entries, so membership
falls back to iterating `entries_in_order` and comparing the string key with
each `TranslationEntry` object under `==`; a `str` never equals a foreign
object under default identity equality, so each comparison — and hence the
membership test — is false. -/
def pyStrEqEntry (_k : Str) (_e : TranslationEntry) : Bool := false

/-- The iteration-based membership test `key in translation_file`. -/
def pyInFile (k : Str) (tf : TranslationFile) : Bool :=
  tf.entries_in_order.any (fun e => pyStrEqEntry k e)

/-- The list comprehension of line 379:
`[existing_translation[entry.key] for entry in all_entries if entry.key in
existing_translation]`.  `TranslationFile` has no `__getitem__`, so the
subscript raises `TypeError` for any element that passes the filter; the
comprehension therefore succeeds (with `[]`) exactly when no element does. -/
def possible_translation_entries (tf : TranslationFile)
    (es : List TranslationEntry) : Except PyError (List TranslationEntry) :=
  if (es.filter (fun e => pyInFile e.key tf)).isEmpty then .ok []
  else .error .typeError

/-- The `sys.exit(3)` report of lines 384-394. -/
def exportAmbiguityReport (me : TranslationEntry) (ctx : Str)
    (all_entries pes : List TranslationEntry) (pts : List Str) : List Str :=
  ("Error: ".toList ++ (Nat.repr pts.length).toList ++
      " translations found for text '".toList ++ me.value ++
      "', context '".toList ++ ctx ++
      "', with the following set of keys:".toList)
    :: (all_entries.map (fun a => "  ".toList ++ a.key))
    ++ (if 0 < pts.length then
          ["Possible translations:".toList] ++
            (pts.foldl (fun acc pt =>
              acc ++ (("  '".toList ++ pt ++ "'".toList)
                :: ((pes.filter (fun pe => pe.value = pt)).map
                      (fun pe => "    ".toList ++ pe.key)))) [])
        else [])

/-- The block-emission loop for mode `zusi2po` (lines 346-400): as
`zusi2pot_lines`, but the `msgstr` line is looked up in the existing
translation via the (broken) membership test; zero or several distinct
candidate values print the report and exit with status 3. -/
def zusi2po_lines (masters : List TranslationEntry)
    (existing_translation : TranslationFile) : Except RunError (List Str) :=
  let seq := get_empty_string_entry :: masters
  let run : Except RunError (List ((Str × PyCtx) × List TranslationEntry) × List Str) :=
    seq.foldlM (fun st me => do
    let d := st.1
    let out := st.2
    match adictFind d (byValueKey me) with
    | none => pure (d, out)
    | some all_entries =>
      if all_entries.isEmpty then throw (RunError.py .runtimeError)
      else
        let d2 := adictRemove d (byValueKey me)
        match me.context with
        | PyCtx.fls => throw (RunError.py .typeError)
        | PyCtx.s ctx =>
          match possible_translation_entries existing_translation all_entries with
          | .error e => throw (RunError.py e)
          | .ok pes =>
            let pts := (pes.map (fun (pe : TranslationEntry) => pe.value)).dedup
            if pts.length = 1 then
              let ls := (all_entries.map (fun (a : TranslationEntry) => "#. :src: ".toList ++ a.key))
                ++ (if ctx.length ≠ 0 then
                      ["msgctxt \"".toList ++ escape_po ctx ++ "\"".toList] else [])
                ++ ["msgid \"".toList ++ escape_po me.value ++ "\"".toList]
                ++ ["msgstr \"".toList ++ escape_po (pts.getD 0 []) ++ "\"".toList]
                ++ (if me.key = [] then [contentTypeLine] else [])
                ++ [[]]
              pure (d2, out ++ ls)
            else
              throw (RunError.exitCode 3 (exportAmbiguityReport me ctx all_entries pes pts)))
      (buildByValue masters, [])
  run.map (fun st => st.2)

/-- The `po2zusi` output line for one master entry (line 413): leading spaces
are re-emitted only for keys containing `Streckenvorschau`; quotes are never
re-emitted. -/
def write_zusi_line (e : TranslationEntry) : Str :=
  e.key ++ " = ".toList ++
    (if containsSub ("Streckenvorschau".toList) e.key then
        List.replicate e.leftspaces ' '
      else []) ++ e.value

/-- One parse-serialize cycle: parse a line, write it back, parse again. -/
def zusiStep (e : TranslationEntry) : Option TranslationEntry :=
  read_zusi_line noContexts false (write_zusi_line e)

/-- Iterated parse-serialize cycles starting from a parsed entry. -/
def zusiStepN : Nat → TranslationEntry → Option TranslationEntry
  | 0, e => some e
  | n + 1, e => (zusiStep e).bind (zusiStepN n)

/-!  Concrete scenarios used by claim theorems and witnesses.  -/

/-- The target `TranslationFile` of the spec's ambiguity example: two PO
entries under key `K` with source texts `hello`/`hi` and translations
`bonjour`/`salut`. -/
def ambTargetFile : TranslationFile :=
  ⟨[⟨"K".toList, "bonjour".toList, [], PyCtx.s [], false, false, 0, 0, some ("hello".toList)⟩,
    ⟨"K".toList, "salut".toList, [], PyCtx.s [], false, false, 0, 0, some ("hi".toList)⟩]⟩

/-- The master entry `{key: "K", value: "hello"}` of the ambiguity example. -/
def ambMasterHello : TranslationEntry :=
  ⟨"K".toList, "hello".toList, [], PyCtx.s [], false, false, 0, 0, none⟩

/-- The master entry `{key: "K", value: "bye"}` of the ambiguity example. -/
def ambMasterBye : TranslationEntry :=
  ⟨"K".toList, "bye".toList, [], PyCtx.s [], false, false, 0, 0, none⟩

/-- Master entries parsed from the one-line Zusi file `A = x`. -/
def smallMasters : List TranslationEntry :=
  (emptyFile.read_from_zusi noContexts false ["A = x".toList]).entries_in_order

/-- Master entries parsed from the one-line Zusi file `A = hello`. -/
def helloMasters : List TranslationEntry :=
  (emptyFile.read_from_zusi noContexts false ["A = hello".toList]).entries_in_order

/-- An existing translation file mapping key `A` to `bonjour`. -/
def bonjourTranslation : TranslationFile :=
  emptyFile.read_from_zusi noContexts false ["A = bonjour".toList]

/-- The three-line PO input whose final block is not followed by a blank
line. -/
def poTailLines : List Str :=
  ["#. :src: K".toList, "msgid \"hello\"".toList, "msgstr \"bonjour\"".toList]

/-- A small master file for the shortcut-generation scenario: one caption key
whose source text carries the marker `&Ab`. -/
def shortcutMaster : TranslationFile :=
  emptyFile.read_from_zusi noContexts false ["ACaption = &Ab".toList]

/-- The translated file for the shortcut-generation scenario: `ACaption`
translates to `ab`. -/
def shortcutTranslation : TranslationFile :=
  ⟨[⟨"ACaption".toList, "ab".toList, [], PyCtx.s [], false, false, 0, 0, none⟩]⟩

/-!  Helper lemmas.  -/

/-- `get_shortcut` computes the first-adjacent-pair characterization: the
lowercased successor of the first `&` whose immediate successor is not `&`. -/
theorem get_shortcut_eq_first_marker (s : Str) :
    get_shortcut s = first_marker_spec s := by
  induction s with
  | nil => rfl
  | cons a t ih =>
    cases t with
    | nil => rfl
    | cons b rest =>
      by_cases ha : a = '&'
      · by_cases hb : b = '&'
        · subst ha; subst hb
          simp only [get_shortcut, if_pos rfl, ne_eq, not_true_eq_false, if_false,
            first_marker_spec, List.tail_cons, List.zip_cons_cons, List.find?] at ih ⊢
          simpa using ih
        · subst ha
          simp only [get_shortcut, if_pos rfl, ne_eq, hb, not_false_eq_true, if_true,
            first_marker_spec, List.tail_cons, List.zip_cons_cons, List.find?]
          simp [hb]
      · simp only [get_shortcut, if_neg ha, first_marker_spec, List.tail_cons,
          List.zip_cons_cons, List.find?] at ih ⊢
        simp only [decide_eq_true_eq, ha, decide_eq_false, Bool.false_and]
        exact ih

/-- The leading-space count recorded by the Zusi parser equals the length of
the matching prefix. -/
theorem length_sub_dropWhile (p : Char → Bool) (l : Str) :
    l.length - (l.dropWhile p).length = (l.takeWhile p).length := by
  have h := @List.takeWhile_append_dropWhile Char p l
  have hlen : (l.takeWhile p).length + (l.dropWhile p).length = l.length := by
    rw [← List.length_append, h]
  omega

/-- The trailing-space count recorded by the Zusi parser equals the length of
the matching suffix. -/
theorem length_sub_rdropWhile (p : Char → Bool) (l : Str) :
    l.length - (List.rdropWhile p l).length = (List.rtakeWhile p l).length := by
  have h1 : (List.rdropWhile p l).length = (l.reverse.dropWhile p).length := by
    simp [List.rdropWhile]
  have h2 : (List.rtakeWhile p l).length = (l.reverse.takeWhile p).length := by
    simp [List.rtakeWhile]
  have h3 := length_sub_dropWhile p l.reverse
  simp only [List.length_reverse] at h3
  omega

/-- Splitting a list as strip-prefix, stripped core and strip-suffix. -/
theorem pyStrip_decomposition (p : Char → Bool) (l : Str) :
    l = l.takeWhile p ++ pyStrip p l ++ List.rtakeWhile p (l.dropWhile p) := by
  have h1 := @List.takeWhile_append_dropWhile Char p l
  have h2 : List.rdropWhile p (l.dropWhile p) ++ List.rtakeWhile p (l.dropWhile p)
      = l.dropWhile p := by
    rw [List.rdropWhile, List.rtakeWhile, ← List.reverse_append,
      List.takeWhile_append_dropWhile, List.reverse_reverse]
  rw [pyStrip, List.append_assoc, h2, h1]

/-- Any list of characters all satisfying `quoteP` is a replicate of quotes. -/
theorem eq_replicate_quote (l : Str) (h : ∀ c ∈ l, quoteP c) :
    l = List.replicate l.length '\'' := by
  refine List.eq_replicate_length.mpr (fun b hb => ?_)
  have := h b hb
  simpa [quoteP] using this

/-- A non-empty stripped list does not begin with a stripped character. -/
theorem pyStrip_head_not (p : Char → Bool) (l : Str) (hne : pyStrip p l ≠ [])
    (c : Char) (hc : (pyStrip p l).head? = some c) : ¬p c := by
  have hpre : pyStrip p l <+: l.dropWhile p := List.rdropWhile_prefix p _
  obtain ⟨t, ht⟩ := hpre
  obtain ⟨ys, hys⟩ : ∃ ys, pyStrip p l = c :: ys := by
    cases hres : pyStrip p l with
    | nil => exact absurd hres hne
    | cons x xs =>
      rw [hres] at hc
      simp only [List.head?_cons, Option.some_inj] at hc
      exact ⟨xs, by rw [hc]⟩
  have hx : l.dropWhile p = c :: (ys ++ t) := by
    rw [← ht, hys]; simp
  have hid := @List.dropWhile_idempotent Char p l
  rw [hx] at hid
  intro hpc
  rw [List.dropWhile_cons, if_pos hpc] at hid
  have hle := (@List.dropWhile_sublist Char (ys ++ t) p).length_le
  rw [hid] at hle
  simp at hle

/-- A non-empty stripped list does not end with a stripped character. -/
theorem pyStrip_getLast_not (p : Char → Bool) (l : Str) (hne : pyStrip p l ≠ [])
    (c : Char) (hc : (pyStrip p l).getLast? = some c) : ¬p c := by
  have h : ¬p ((pyStrip p l).getLast hne) :=
    List.rdropWhile_last_not p (l.dropWhile p) hne
  have hc' : (pyStrip p l).getLast hne = c := by
    have h2 := List.getLast?_eq_getLast (pyStrip p l) hne
    rw [h2] at hc
    exact Option.some_inj.mp hc
  rwa [hc'] at h

/-- A cons list fixed by `dropWhile` has a head failing the predicate. -/
theorem head_false_of_dropWhile_eq_self (p : Char → Bool) (c : Char) (l : Str)
    (h : List.dropWhile p (c :: l) = c :: l) : p c = false := by
  by_contra hc
  have hc' : p c = true := by
    cases hpc : p c with
    | false => exact absurd hpc hc
    | true => rfl
  rw [List.dropWhile_cons, if_pos hc'] at h
  have hle := (@List.dropWhile_sublist Char l p).length_le
  rw [h] at hle
  simp at hle

/-- A list fixed by `rdropWhile` has a last element failing the predicate. -/
theorem getLast_false_of_rdropWhile_eq_self (p : Char → Bool) (l : Str)
    (h : List.rdropWhile p l = l) (hne : l ≠ []) : p (l.getLast hne) = false := by
  have := List.rdropWhile_eq_self_iff.mp h hne
  cases hpc : p (l.getLast hne) with
  | false => rfl
  | true => exact absurd hpc this

/-- Parsing the already-canonical line `K ++ " = " ++ V`, for `V` free of
leading/trailing spaces and quotes: the entry records `V` verbatim with no
quote or space metadata. -/
theorem parse_unquoted_line (K V : Str)
    (h1strip : pyStrip crlfP (K ++ " = ".toList ++ V) = K ++ " = ".toList ++ V)
    (h1split : splitFirst (" = ".toList) (K ++ " = ".toList ++ V) = some (K, V))
    (hVs1 : V.dropWhile spaceP = V) (hVs2 : List.rdropWhile spaceP V = V)
    (hVq1 : V.dropWhile quoteP = V) (hVq2 : List.rdropWhile quoteP V = V) :
    read_zusi_line noContexts false (K ++ " = ".toList ++ V) =
      some ⟨K, V, V, PyCtx.s [], false, false, 0, 0, none⟩ := by
  simp only [read_zusi_line, h1strip, h1split]
  have hstr : pyStrip spaceP V = V := by rw [pyStrip, hVs1, hVs2]
  have hstrq : pyStrip quoteP V = V := by rw [pyStrip, hVq1, hVq2]
  have hlq : (decide (V ≠ []) && decide (V.head? = some '\'')) = false := by
    cases V with
    | nil => simp
    | cons c V' =>
      have hc := head_false_of_dropWhile_eq_self quoteP c V' hVq1
      have : c ≠ '\'' := by
        intro hcc
        rw [hcc] at hc
        simp [quoteP] at hc
      simp [this]
  have hrq : (decide (1 < V.length) && decide (V.getLast? = some '\'')) = false := by
    rcases hV : V with _ | ⟨c, V'⟩
    · simp
    · have hne : V ≠ [] := by rw [hV]; simp
      have hlast := getLast_false_of_rdropWhile_eq_self quoteP V hVq2 hne
      have hl2 : V.getLast? = some (V.getLast hne) := List.getLast?_eq_getLast V hne
      have hno : V.getLast? ≠ some '\'' := by
        rw [hl2]
        intro hcc
        have : V.getLast hne = '\'' := Option.some_inj.mp hcc
        rw [this] at hlast
        simp [quoteP] at hlast
      rw [← hV]
      simp [hno]
  simp only [noContexts, hstr, hstrq, hlq, hrq, hVs1, hVs2, Bool.false_eq_true,
    if_false, Bool.false_and]
  simp [Nat.sub_self]

/-- The writer emits `K ++ " = " ++ V` for every entry with zero recorded
leading spaces (the `Streckenvorschau` padding is empty). -/
theorem write_zero_spaces (e : TranslationEntry) (h : e.leftspaces = 0) :
    write_zusi_line e = e.key ++ " = ".toList ++ e.value := by
  rw [write_zusi_line, h]
  cases hc : containsSub ("Streckenvorschau".toList) e.key <;> simp

/-- Parsing the quoted line `K ++ " = " ++ ('VALUE')`, for `VALUE` free of
leading/trailing quotes: both quotes are recorded and dropped. -/
theorem parse_quoted_line (K V : Str)
    (h0strip : pyStrip crlfP (K ++ " = ".toList ++ ('\'' :: (V ++ ['\'']))) =
      K ++ " = ".toList ++ ('\'' :: (V ++ ['\''])))
    (h0split : splitFirst (" = ".toList)
        (K ++ " = ".toList ++ ('\'' :: (V ++ ['\'']))) =
      some (K, '\'' :: (V ++ ['\''])))
    (hVq1 : V.dropWhile quoteP = V) (hVq2 : List.rdropWhile quoteP V = V) :
    read_zusi_line noContexts false (K ++ " = ".toList ++ ('\'' :: (V ++ ['\'']))) =
      some ⟨K, V, V, PyCtx.s [], true, true, 0, 0, none⟩ := by
  simp only [read_zusi_line, h0strip, h0split]
  have hq : quoteP '\'' = true := by decide
  have hs : spaceP '\'' = false := by decide
  have hdw : List.dropWhile spaceP ('\'' :: (V ++ ['\''])) = '\'' :: (V ++ ['\'']) := by
    rw [List.dropWhile_cons, if_neg (by simp [hs])]
  have hrdw : List.rdropWhile spaceP ('\'' :: (V ++ ['\''])) = '\'' :: (V ++ ['\'']) := by
    show List.rdropWhile spaceP (('\'' :: V) ++ ['\'']) = '\'' :: (V ++ ['\''])
    rw [List.rdropWhile_concat_neg spaceP ('\''::V) '\'' (by simp [hs])]
    simp
  have hstr : pyStrip spaceP ('\'' :: (V ++ ['\''])) = '\'' :: (V ++ ['\'']) := by
    rw [pyStrip, hdw, hrdw]
  have hlast : ('\'' :: (V ++ ['\''])).getLast? = some '\'' := by
    show (('\'' :: V) ++ ['\'']).getLast? = some '\''
    exact List.getLast?_concat _
  have hq2 : pyStrip quoteP ('\'' :: (V ++ ['\''])) = V := by
    rw [pyStrip, List.dropWhile_cons, if_pos (by simp [hq])]
    cases hV : V with
    | nil => simp [List.dropWhile_cons, hq, List.rdropWhile_nil]
    | cons c V' =>
      have hc := head_false_of_dropWhile_eq_self quoteP c V' (hV ▸ hVq1)
      rw [show (c :: V') ++ ['\''] = c :: (V' ++ ['\'']) from by simp,
        List.dropWhile_cons, if_neg (by simp [hc])]
      rw [show c :: (V' ++ ['\'']) = (c :: V') ++ ['\''] from by simp,
        List.rdropWhile_concat_pos quoteP (c :: V') '\'' hq, ← hV, hVq2]
  simp only [hdw, hrdw, hstr, hq2, hlast, noContexts]
  simp [Nat.sub_self, List.length_append]

/-- Full characterization of the `add_shortcut` scanning loop on a sorted
occurrence list: a `none` result means no element beat the initial minimum;
a `some p` result is either a list element strictly beating the initial
minimum or the carried position, it attains the minimal weight over the list,
and it precedes every list element of equal weight. -/
theorem scanMin_spec (s : Str) (l : List Nat) :
    ∀ (minw : Nat) (pos : Option Nat),
    (∀ p0, pos = some p0 → get_shortcut_weight s p0 none none = minw) →
    (∀ p0, pos = some p0 → ∀ q ∈ l, p0 < q) →
    List.Pairwise (· < ·) l →
    (scanMin s l minw pos = none →
       pos = none ∧ ∀ q ∈ l, minw ≤ get_shortcut_weight s q none none) ∧
    (∀ p, scanMin s l minw pos = some p →
       ((p ∈ l ∧ get_shortcut_weight s p none none < minw) ∨
          (pos = some p ∧ get_shortcut_weight s p none none = minw)) ∧
       (∀ q ∈ l, get_shortcut_weight s p none none ≤ get_shortcut_weight s q none none) ∧
       (∀ q ∈ l, get_shortcut_weight s q none none = get_shortcut_weight s p none none →
          p ≤ q)) := by
  induction l with
  | nil =>
    intro minw pos hinv _hbef _hsort
    constructor
    · intro h
      rw [scanMin] at h
      exact ⟨h, by simp⟩
    · intro p hp
      rw [scanMin] at hp
      exact ⟨Or.inr ⟨hp, hinv p hp⟩, by simp, by simp⟩
  | cons q l' ih =>
    intro minw pos hinv hbef hsort
    have hsort' : List.Pairwise (· < ·) l' := (List.pairwise_cons.mp hsort).2
    have hql : ∀ r ∈ l', q < r := (List.pairwise_cons.mp hsort).1
    by_cases hlt : get_shortcut_weight s q none none < minw
    · have hstep : scanMin s (q :: l') minw pos =
          scanMin s l' (get_shortcut_weight s q none none) (some q) := by
        rw [scanMin, if_pos hlt]
      have IH := ih (get_shortcut_weight s q none none) (some q)
        (fun p0 h => by cases h; rfl)
        (fun p0 h => by cases h; exact hql)
        hsort'
      constructor
      · intro h
        rw [hstep] at h
        obtain ⟨habs, _⟩ := IH.1 h
        exact absurd habs (by simp)
      · intro p hp
        rw [hstep] at hp
        obtain ⟨hmem, hminall, hties⟩ := IH.2 p hp
        have hple : get_shortcut_weight s p none none ≤
            get_shortcut_weight s q none none := by
          rcases hmem with ⟨_, hlt2⟩ | ⟨_, heq⟩
          · exact Nat.le_of_lt hlt2
          · exact Nat.le_of_eq heq
        refine ⟨?_, ?_, ?_⟩
        · left
          constructor
          · rcases hmem with ⟨hm, _⟩ | ⟨hq, _⟩
            · exact List.mem_cons_of_mem q hm
            · cases hq; exact List.mem_cons_self q l'
          · exact Nat.lt_of_le_of_lt hple hlt
        · intro r hr
          rcases List.mem_cons.mp hr with hrq | hrl
          · rw [hrq]; exact hple
          · exact hminall r hrl
        · intro r hr heqw
          rcases List.mem_cons.mp hr with hrq | hrl
          · subst hrq
            rcases hmem with ⟨_, hlt2⟩ | ⟨hq, _⟩
            · rw [heqw] at hlt2
              exact absurd hlt2 (Nat.lt_irrefl _)
            · cases hq; exact Nat.le_refl p
          · exact hties r hrl heqw
    · have hstep : scanMin s (q :: l') minw pos = scanMin s l' minw pos := by
        rw [scanMin, if_neg hlt]
      have IH := ih minw pos hinv
        (fun p0 h r hr => hbef p0 h r (List.mem_cons_of_mem q hr))
        hsort'
      have hqge : minw ≤ get_shortcut_weight s q none none := Nat.le_of_not_lt hlt
      constructor
      · intro h
        rw [hstep] at h
        obtain ⟨hpos, hall⟩ := IH.1 h
        refine ⟨hpos, ?_⟩
        intro r hr
        rcases List.mem_cons.mp hr with hrq | hrl
        · rw [hrq]; exact hqge
        · exact hall r hrl
      · intro p hp
        rw [hstep] at hp
        obtain ⟨hmem, hminall, hties⟩ := IH.2 p hp
        have hple : get_shortcut_weight s p none none ≤ minw := by
          rcases hmem with ⟨_, hlt2⟩ | ⟨_, heq⟩
          · exact Nat.le_of_lt hlt2
          · exact Nat.le_of_eq heq
        refine ⟨?_, ?_, ?_⟩
        · rcases hmem with ⟨hm, hw⟩ | ⟨hq, hw⟩
          · exact Or.inl ⟨List.mem_cons_of_mem q hm, hw⟩
          · exact Or.inr ⟨hq, hw⟩
        · intro r hr
          rcases List.mem_cons.mp hr with hrq | hrl
          · rw [hrq]
            exact Nat.le_trans hple hqge
          · exact hminall r hrl
        · intro r hr heqw
          rcases List.mem_cons.mp hr with hrq | hrl
          · subst hrq
            have hwp : get_shortcut_weight s p none none = minw :=
              Nat.le_antisymm hple (heqw ▸ hqge)
            rcases hmem with ⟨_, hlt2⟩ | ⟨hq, _⟩
            · rw [hwp] at hlt2
              exact absurd hlt2 (Nat.lt_irrefl _)
            · exact Nat.le_of_lt (hbef p hq r (hr))
          · exact hties r hrl heqw

/-- Occurrence lists are strictly increasing. -/
theorem occurrences_sorted (c : Char) (l : Str) :
    List.Pairwise (· < ·) (occurrences c l) :=
  (List.pairwise_lt_range l.length).filter _

/-- Membership in an occurrence list reads back the character. -/
theorem mem_occurrences (c : Char) (l : Str) (i : Nat) :
    i ∈ occurrences c l ↔ i < l.length ∧ l.get? i = some c := by
  simp [occurrences, List.mem_filter, List.mem_range]

/-- The first minimizer returned by `chooseMinBy` belongs to the list. -/
theorem chooseMinBy_mem {α : Type} (f : α → Nat) (l : List α) (x : α)
    (h : chooseMinBy f l = some x) : x ∈ l := by
  induction l with
  | nil => rw [chooseMinBy] at h; cases h
  | cons a t ih =>
    rw [chooseMinBy] at h
    split at h
    · cases h
      exact List.mem_cons_self _ _
    · rename_i y hy
      split at h
      · cases h
        exact List.mem_cons_self _ _
      · cases h
        exact List.mem_cons_of_mem _ (ih hy)

/-- `chooseMinBy` returns `none` only on the empty list. -/
theorem chooseMinBy_eq_none {α : Type} (f : α → Nat) (l : List α)
    (h : chooseMinBy f l = none) : l = [] := by
  cases l with
  | nil => rfl
  | cons a t =>
    rw [chooseMinBy] at h
    split at h
    · cases h
    · split at h <;> cases h

/-- Inserting an element anywhere yields a permutation of consing it. -/
theorem mem_insertsOf {α : Type} (a : α) (l m : List α)
    (h : m ∈ insertsOf a l) : m.Perm (a :: l) := by
  induction l generalizing m with
  | nil =>
    rw [insertsOf] at h
    rcases List.mem_singleton.mp h with rfl
    exact List.Perm.refl _
  | cons b t ih =>
    rw [insertsOf] at h
    rcases List.mem_cons.mp h with rfl | hm
    · exact List.Perm.refl _
    · obtain ⟨m', hm', rfl⟩ := List.mem_map.mp hm
      exact (List.Perm.cons b (ih m' hm')).trans (List.Perm.swap a b t)

/-- Every enumerated permutation is a permutation of the input. -/
theorem mem_permsOf {α : Type} (l σ : List α) (h : σ ∈ permsOf l) : σ.Perm l := by
  induction l generalizing σ with
  | nil =>
    rw [permsOf] at h
    rcases List.mem_singleton.mp h with rfl
    exact List.Perm.refl _
  | cons a t ih =>
    rw [permsOf] at h
    obtain ⟨m, hm, hσ⟩ := List.mem_flatMap.mp h
    exact (mem_insertsOf a m σ hσ).trans (List.Perm.cons a (ih m hm))

/-- Inserting somewhere is always possible. -/
theorem insertsOf_nonempty {α : Type} (a : α) (l : List α) :
    ∃ m, m ∈ insertsOf a l := by
  cases l with
  | nil => exact ⟨[a], by rw [insertsOf]; exact List.mem_singleton.mpr rfl⟩
  | cons b t => exact ⟨a :: b :: t, by rw [insertsOf]; exact List.mem_cons_self _ _⟩

/-- The enumeration is never empty. -/
theorem permsOf_nonempty {α : Type} (l : List α) : ∃ σ, σ ∈ permsOf l := by
  induction l with
  | nil => exact ⟨[], by rw [permsOf]; exact List.mem_singleton.mpr rfl⟩
  | cons a t ih =>
    obtain ⟨m, hm⟩ := ih
    obtain ⟨σ, hσ⟩ := insertsOf_nonempty a m
    exact ⟨σ, by rw [permsOf]; exact List.mem_flatMap.mpr ⟨m, hm, hσ⟩⟩

/-- The solver always picks some permutation of the padded square. -/
theorem munkresCompute_spec (m : List (List Nat)) :
    ∃ σ : List Nat, σ.Nodup ∧
      σ.length = max m.length (((m.head?).map List.length).getD 0) ∧
      munkresCompute m = (List.range m.length).filterMap (fun i =>
        if σ.getD i 0 < ((m.head?).map List.length).getD 0 then
          some (i, σ.getD i 0)
        else none) := by
  rw [munkresCompute]
  cases hch : chooseMinBy
      (fun sg => ((List.range (max m.length (((m.head?).map List.length).getD 0))).map
        (fun i => if i < m.length ∧ sg.getD i 0 < ((m.head?).map List.length).getD 0
          then (m.getD i []).getD (sg.getD i 0) 0 else 0)).sum)
      (permsOf (List.range (max m.length (((m.head?).map List.length).getD 0))))
      with
  | none =>
    exfalso
    obtain ⟨σ0, hσ0⟩ := permsOf_nonempty
      (List.range (max m.length (((m.head?).map List.length).getD 0)))
    rw [chooseMinBy_eq_none _ _ hch] at hσ0
    cases hσ0
  | some σ =>
    have hmem := chooseMinBy_mem _ _ _ hch
    have hperm := mem_permsOf _ _ hmem
    refine ⟨σ, hperm.nodup_iff.mpr (List.nodup_range _), ?_, rfl⟩
    rw [hperm.length_eq, List.length_range]

/-- Bounds for every pair the solver returns. -/
theorem munkres_mem_bounds (m : List (List Nat)) (ij : Nat × Nat)
    (h : ij ∈ munkresCompute m) :
    ij.1 < m.length ∧ ij.2 < ((m.head?).map List.length).getD 0 := by
  obtain ⟨σ, _, _, heq⟩ := munkresCompute_spec m
  rw [heq] at h
  obtain ⟨i, hi, hf⟩ := List.mem_filterMap.mp h
  by_cases hc : σ.getD i 0 < ((m.head?).map List.length).getD 0
  · rw [if_pos hc] at hf
    cases hf
    exact ⟨List.mem_range.mp hi, hc⟩
  · rw [if_neg hc] at hf
    cases hf

/-- Distinct in-range indices of a duplicate-free list read distinct values. -/
theorem nodup_getD_ne {α : Type} (σ : List α) (d : α) (h : σ.Nodup) (i j : Nat)
    (hi : i < σ.length) (hj : j < σ.length) (hij : i ≠ j) :
    σ.getD i d ≠ σ.getD j d := by
  rw [List.getD_eq_getElem σ d hi, List.getD_eq_getElem σ d hj]
  intro heq
  have h2 : σ.get ⟨i, hi⟩ = σ.get ⟨j, hj⟩ := by simpa using heq
  have h3 := List.nodup_iff_injective_get.mp h h2
  exact hij (by simpa using congrArg Fin.val h3)

/-- The column components of the solver's pairs are pairwise distinct. -/
theorem munkres_snd_nodup (m : List (List Nat)) :
    ((munkresCompute m).map Prod.snd).Nodup := by
  obtain ⟨σ, hnd, hlen, heq⟩ := munkresCompute_spec m
  rw [heq, List.map_filterMap]
  have hrows : m.length ≤ σ.length := by
    rw [hlen]
    exact Nat.le_max_left _ _
  refine List.pairwise_filterMap.mpr ?_
  have hpw : List.Pairwise
      (fun a b => a ≠ b ∧ a < m.length ∧ b < m.length) (List.range m.length) := by
    refine List.Pairwise.imp_of_mem ?_ (List.pairwise_lt_range m.length)
    intro a b ha hb hab
    exact ⟨Nat.ne_of_lt hab, List.mem_range.mp ha, List.mem_range.mp hb⟩
  refine hpw.imp ?_
  intro a b hab c hca c' hcb
  obtain ⟨hne, ha, hb⟩ := hab
  by_cases hcc : σ.getD a 0 < ((m.head?).map List.length).getD 0
  · by_cases hcd : σ.getD b 0 < ((m.head?).map List.length).getD 0
    · rw [if_pos hcc] at hca
      rw [if_pos hcd] at hcb
      have hca' : σ.getD a 0 = c := by simpa using hca
      have hcb' : σ.getD b 0 = c' := by simpa using hcb
      rw [← hca', ← hcb']
      exact nodup_getD_ne σ 0 hnd a b (Nat.lt_of_lt_of_le ha hrows)
        (Nat.lt_of_lt_of_le hb hrows) hne
    · rw [if_neg hcd] at hcb
      simp at hcb
  · rw [if_neg hcc] at hca
    simp at hca

/-- The letter universe is duplicate-free (a sorted Python set). -/
theorem letterset_of_nodup (cands : List ShortcutCand) :
    (letterset_of cands).Nodup := by
  rw [letterset_of]
  exact (List.perm_insertionSort _ _).nodup_iff.mpr (List.nodup_dedup _)

/-- A finite matrix cost other than 9999 certifies that the letter occurs in
the (lowercased) candidate text. -/
theorem get_min_ne_imp_mem (s : Str) (c : Char) (so ex : Option Char)
    (h : get_min_shortcut_weight s c so ex ≠ 9999) : c ∈ s := by
  rw [get_min_shortcut_weight] at h
  cases hocc : occurrences c s with
  | nil => rw [hocc] at h; exact absurd rfl h
  | cons p ps =>
    have hp : p ∈ occurrences c s := by rw [hocc]; exact List.mem_cons_self _ _
    obtain ⟨_, hget⟩ := (mem_occurrences c s p).mp hp
    exact List.get?_mem hget

/-- The matrix entry at a valid index pair. -/
theorem matrixAt_matrix_of (cands : List ShortcutCand) (letters : List Char)
    (i j : Nat) (hi : i < cands.length) (hj : j < letters.length) :
    matrixAt (matrix_of cands letters) (i, j) =
      some (get_min_shortcut_weight (lowerStr (cands.get ⟨i, hi⟩).1.value)
        (letters.get ⟨j, hj⟩) (some (cands.get ⟨i, hi⟩).2.1)
        (cands.get ⟨i, hi⟩).2.2) := by
  rw [matrixAt, matrix_of]
  simp [List.get?_eq_getElem?, List.getElem?_map, List.getElem?_eq_getElem hi,
    List.getElem?_eq_getElem hj, List.get_eq_getElem]

/-- Dimensions of the cost matrix for a non-empty candidate list. -/
theorem matrix_of_dims (cands : List ShortcutCand) (letters : List Char)
    (hne : cands ≠ []) :
    (matrix_of cands letters).length = cands.length ∧
    (((matrix_of cands letters).head?).map List.length).getD 0 = letters.length := by
  constructor
  · rw [matrix_of, List.length_map]
  · cases cands with
    | nil => exact absurd rfl hne
    | cons c cs => simp [matrix_of]

/-- Binding a success in the `Except` monad applies the continuation. -/
theorem except_bind_ok {E A B : Type} (a : A) (f : A → Except E B) :
    (Except.ok a >>= f) = f a := rfl

/-- Binding an error in the `Except` monad propagates the error. -/
theorem except_bind_error {E A B : Type} (e : E) (f : A → Except E B) :
    (Except.error e >>= f) = Except.error e := rfl

/-- A successful assignment fold certifies every visited cost and appends the
looked-up pairs in order. -/
theorem assignFold_ok (cands : List ShortcutCand) (letters : List Char)
    (matrix : List (List Nat)) :
    ∀ (idxs : List (Nat × Nat)) (acc res : List (TranslationEntry × Char)),
    idxs.foldlM (assignStep cands letters matrix) acc = Except.ok res →
    (∀ ij ∈ idxs, ∀ cost, matrixAt matrix ij = some cost → cost ≠ 9999) ∧
    res = acc ++ idxs.map (fun ij =>
      (((cands.get? ij.1).getD dummyCand).1, (letters.get? ij.2).getD ' ')) := by
  intro idxs
  induction idxs with
  | nil =>
    intro acc res h
    rw [List.foldlM_nil] at h
    cases h
    exact ⟨by simp, by simp⟩
  | cons ij rest ih =>
    intro acc res h
    rw [List.foldlM_cons] at h
    cases hstep : assignStep cands letters matrix acc ij with
    | error e =>
      rw [hstep, except_bind_error] at h
      exact Except.noConfusion h
    | ok acc' =>
      rw [hstep, except_bind_ok] at h
      obtain ⟨hrest, hres⟩ := ih acc' res h
      rw [assignStep] at hstep
      split at hstep
      · rename_i cand letter cost hcand hletter hcost
        split at hstep
        · cases hstep
        · rename_i hne9999
          cases hstep
          refine ⟨?_, ?_⟩
          · intro ij' hij' cost' hcost'
            rcases List.mem_cons.mp hij' with hq | hq
            · rw [hq] at hcost'
              rw [hcost] at hcost'
              cases hcost'
              exact hne9999
            · exact hrest ij' hq cost' hcost'
          · rw [hres, List.map_cons, hcand, hletter]
            simp
      · cases hstep

/-- The shape of a successful per-group run: empty candidate lists yield no
assignments, otherwise the assignments are exactly the solver's pairs looked
up in the candidate and letter lists, all with certified non-9999 costs. -/
theorem group_assignments_ok (mf tf et : TranslationFile) (g : List Str)
    (asg : List (TranslationEntry × Char))
    (h : group_assignments mf tf et g = Except.ok asg) :
    ∃ cands, candidates_of_group mf tf et g = Except.ok cands ∧
      ((cands.isEmpty = true ∧ asg = []) ∨
       (cands.isEmpty = false ∧
        asg = (munkresCompute (matrix_of cands (letterset_of cands))).map (fun ij =>
          (((cands.get? ij.1).getD dummyCand).1,
            ((letterset_of cands).get? ij.2).getD ' ')) ∧
        (∀ ij ∈ munkresCompute (matrix_of cands (letterset_of cands)),
          ∀ cost, matrixAt (matrix_of cands (letterset_of cands)) ij = some cost →
            cost ≠ 9999))) := by
  rw [group_assignments] at h
  cases hc : candidates_of_group mf tf et g with
  | error e =>
    rw [hc, except_bind_error] at h
    exact Except.noConfusion h
  | ok cands =>
    rw [hc, except_bind_ok] at h
    refine ⟨cands, rfl, ?_⟩
    by_cases hemp : cands.isEmpty
    · rw [if_pos hemp] at h
      cases h
      exact Or.inl ⟨hemp, rfl⟩
    · rw [if_neg hemp] at h
      obtain ⟨hcosts, hres⟩ := assignFold_ok cands (letterset_of cands)
        (matrix_of cands (letterset_of cands)) (munkresCompute _) [] asg h
      refine Or.inr ⟨by simpa using hemp, ?_, hcosts⟩
      rw [hres]
      simp

/-- Dict lookup on a cons cell. -/
theorem adictFind_cons {κ β : Type} [DecidableEq κ] (p : κ × β)
    (d : List (κ × β)) (k : κ) :
    adictFind (p :: d) k = if p.1 = k then some p.2 else adictFind d k := by
  rw [adictFind, adictFind, List.find?]
  by_cases h : p.1 = k
  · rw [show (decide (p.1 = k)) = true from decide_eq_true h, if_pos h]
    rfl
  · rw [show (decide (p.1 = k)) = false from decide_eq_false h, if_neg h]

/-- Dict lookup after a single overwrite. -/
theorem adictFind_adictSet {κ β : Type} [DecidableEq κ]
    (d : List (κ × β)) (k0 k : κ) (v0 : β) :
    adictFind (adictSet d k0 v0) k = if k = k0 then some v0 else adictFind d k := by
  induction d with
  | nil =>
    rw [adictSet, adictFind_cons]
    by_cases hk : k = k0
    · rw [if_pos (show (k0, v0).1 = k from hk.symm), if_pos hk]
    · rw [if_neg (show ¬((k0, v0).1 = k) from fun h => hk h.symm), if_neg hk]
  | cons p rest ih =>
    rw [adictSet]
    by_cases hp : p.1 = k0
    · rw [if_pos hp, adictFind_cons, adictFind_cons]
      by_cases hk : k = k0
      · rw [if_pos (show (k0, v0).1 = k from hk.symm), if_pos hk]
      · rw [if_neg (show ¬((k0, v0).1 = k) from fun h => hk h.symm), if_neg hk,
          if_neg (show ¬(p.1 = k) from fun h => hk ((h.symm.trans hp)))]
    · rw [if_neg hp, adictFind_cons, adictFind_cons, ih]
      by_cases hk : k = k0
      · rw [if_pos hk, if_pos hk,
          if_neg (show ¬(p.1 = k) from fun h => hp (h.trans hk))]
      · rw [if_neg hk, if_neg hk]

/-- Where a binding in the folded-in result dict comes from. -/
theorem adictFold_lookup (asg : List (TranslationEntry × Char)) :
    ∀ (d : List (Str × Char)) (k : Str) (c : Char),
    adictFind (asg.foldl (fun r p => adictSet r p.1.key p.2) d) k = some c →
    adictFind d k = some c ∨ ∃ pr ∈ asg, pr.1.key = k ∧ pr.2 = c := by
  induction asg with
  | nil =>
    intro d k c h
    exact Or.inl h
  | cons pr rest ih =>
    intro d k c h
    rw [List.foldl_cons] at h
    rcases ih (adictSet d pr.1.key pr.2) k c h with h1 | h1
    · rw [adictFind_adictSet] at h1
      by_cases hk : k = pr.1.key
      · rw [if_pos hk] at h1
        cases h1
        exact Or.inr ⟨pr, List.mem_cons_self _ _, hk.symm, rfl⟩
      · rw [if_neg hk] at h1
        exact Or.inl h1
    · obtain ⟨pr', hmem, hkey, hval⟩ := h1
      exact Or.inr ⟨pr', List.mem_cons_of_mem _ hmem, hkey, hval⟩

/-- A successful whole-run fold: every group succeeded and every binding of
the final dict was written by some group's assignment. -/
theorem generateFold_ok (mf tf et : TranslationFile) :
    ∀ (groups : List (List Str)) (init res : List (Str × Char)),
    groups.foldlM (groupStep mf tf et) init = Except.ok res →
    (∀ g ∈ groups, ∃ asg, group_assignments mf tf et g = Except.ok asg) ∧
    (∀ k c, adictFind res k = some c →
      adictFind init k = some c ∨
      ∃ g ∈ groups, ∃ asg, group_assignments mf tf et g = Except.ok asg ∧
        ∃ pr ∈ asg, pr.1.key = k ∧ pr.2 = c) := by
  intro groups
  induction groups with
  | nil =>
    intro init res h
    rw [List.foldlM_nil] at h
    cases h
    exact ⟨by simp, fun k c h => Or.inl h⟩
  | cons g gs ih =>
    intro init res h
    rw [List.foldlM_cons] at h
    cases hga : group_assignments mf tf et g with
    | error e =>
      rw [groupStep, hga] at h
      rw [except_bind_error] at h
      exact Except.noConfusion h
    | ok asg =>
      have hstep : groupStep mf tf et init g =
          Except.ok (asg.foldl (fun r p => adictSet r p.1.key p.2) init) := by
        rw [groupStep, hga]
        rfl
      rw [hstep, except_bind_ok] at h
      obtain ⟨hall, horig⟩ := ih _ res h
      constructor
      · intro g' hg'
        rcases List.mem_cons.mp hg' with hgg | hgg
        · exact ⟨asg, hgg ▸ hga⟩
        · exact hall g' hgg
      · intro k c hk
        rcases horig k c hk with h1 | h1
        · rcases adictFold_lookup asg init k c h1 with h2 | h2
          · exact Or.inl h2
          · exact Or.inr ⟨g, List.mem_cons_self _ _, asg, hga, h2⟩
        · obtain ⟨g', hg', asg', hasg', hpr⟩ := h1
          exact Or.inr ⟨g', List.mem_cons_of_mem _ hg', asg', hasg', hpr⟩

/-!  Claim theorems.  -/

/-- C1.  On the spec's own example the code behaves as claimed only for the
matching case: resolving `{key: "K", value: "hello"}` against the two
candidates returns the `bonjour` entry, but resolving `{key: "K", value:
"bye"}` raises a `TranslationException` whose message enumerates the
*source-filtered* dict (empty here), so the error names neither candidate:
the message is exactly `Ambiguous translation for key 'K', original text
'bye': ` and contains neither candidate's value nor source text, contradicting
the claimed enumeration of every candidate. -/
theorem C1_ambiguity_error_names_no_candidates :
    (ambTargetFile.get_translated_entry ambMasterHello).map
        (fun e => e.value) = .ok ("bonjour".toList) ∧
    ambTargetFile.get_translated_entry ambMasterBye =
      .error (.translationError
        ("Ambiguous translation for key 'K', original text 'bye': ".toList)) ∧
    containsSub ("bonjour".toList)
        ("Ambiguous translation for key 'K', original text 'bye': ".toList) = false ∧
    containsSub ("salut".toList)
        ("Ambiguous translation for key 'K', original text 'bye': ".toList) = false ∧
    containsSub ("hello".toList)
        ("Ambiguous translation for key 'K', original text 'bye': ".toList) = false ∧
    containsSub ("hi".toList)
        ("Ambiguous translation for key 'K', original text 'bye': ".toList) = false := by
  refine ⟨rfl, rfl, ?_, ?_, ?_, ?_⟩ <;> decide

/-- C2 counterexample.  The claim asserts `get_shortcut("Save && Exit") =
None` and `get_shortcut("A && &Z") = 'z'`; the code returns the space
character in both cases, because after seeing the first `&` of an `&&` pair
the search resumes at the second `&`, whose successor is a space. -/
theorem C2_counterexample :
    get_shortcut ("Save && Exit".toList) = some ' ' ∧
    get_shortcut ("A && &Z".toList) = some ' ' ∧
    some ' ' ≠ (none : Option Char) ∧ some ' ' ≠ some 'z' := by
  refine ⟨rfl, rfl, ?_, ?_⟩ <;> decide

/-- C2 (amended).  `get_shortcut` returns the lowercased character following
the first `&` that is not immediately followed by another `&` — without
skipping `&&` pairs as units, so the second `&` of a pair is itself a marker
when its successor is not `&` — and `none` when no such `&` exists; hence
`get_shortcut("&File") = 'f'`, `get_shortcut("Save && Exit") = ' '` and
`get_shortcut("A && &Z") = ' '`. -/
theorem C2_get_shortcut_first_marker :
    (∀ s : Str, get_shortcut s = first_marker_spec s) ∧
    get_shortcut ("&File".toList) = some 'f' ∧
    get_shortcut ("Save && Exit".toList) = some ' ' ∧
    get_shortcut ("A && &Z".toList) = some ' ' := by
  exact ⟨get_shortcut_eq_first_marker, rfl, rfl, rfl⟩

/-- C3.  The synthetic empty-key header entry is inserted into
`entries_in_order`, but the `(value, context)` grouping dict was built before
the insertion and the synthetic entry's context is the Python constant
`False`, so its key `("", False)` is never present and the loop `continue`s
past it: converting the master file `A = x` emits no header block — the first
emitted line belongs to the `A` block and no `Content-Type` line appears. -/
theorem C3_header_block_never_emitted :
    zusi2pot_lines smallMasters =
      .ok [("#. :src: A".toList), ("msgid \"x\"".toList),
           ("msgstr \"\"".toList), ([] : Str)] ∧
    (∀ l ∈ [("#. :src: A".toList), ("msgid \"x\"".toList),
            ("msgstr \"\"".toList), ([] : Str)], l ≠ contentTypeLine) ∧
    ("#. :src: A".toList) ≠ ("msgid \"\"".toList) :=
  ⟨by rfl, by decide, by decide⟩

/-- C4.  With master `A = hello` and existing translation `A = bonjour` the
merged group for `hello` has exactly one distinct existing-translation value,
yet `zusi2po` exits with status 3 reporting zero translations: the membership
test `entry.key in existing_translation` iterates the file's entries and
compares the string key against `TranslationEntry` objects, which is always
false, so no translation is ever found. -/
theorem C4_zusi2po_always_exits_3 :
    ((bonjourTranslation.entriesAt ("A".toList)).map
        (fun e => e.value)).dedup = [("bonjour".toList)] ∧
    zusi2po_lines helloMasters bonjourTranslation =
      .error (.exitCode 3
        [("Error: 0 translations found for text 'hello', context '', with the following set of keys:".toList),
         ("  A".toList)]) := by
  exact ⟨rfl, rfl⟩

/-- C5.  Reading the PO block `#. :src: K / msgid "hello" / msgstr "bonjour"`
without a trailing blank line flushes the entry's value and context like the
blank-line flush does, but omits the `src_value` assignment: the recorded
source text is absent (`none`) instead of `"hello"`, so the two parses are not
field-for-field identical. -/
theorem C5_eof_flush_drops_source_text :
    ((emptyFile.read_from_po poTailLines).entries_in_order.map
        (fun e => (e.value, e.context, e.src_value))) =
      [("bonjour".toList, PyCtx.s [], (none : Option Str))] ∧
    ((emptyFile.read_from_po (poTailLines ++ [[]])).entries_in_order.map
        (fun e => (e.value, e.context, e.src_value))) =
      [("bonjour".toList, PyCtx.s [], some ("hello".toList))] ∧
    (none : Option Str) ≠ some ("hello".toList) :=
  ⟨by rfl, by rfl, by decide⟩

/-- C6 counterexample.  The claim says at most one quote character is removed
per side, so parsing `K = ''x''` would store `'x'`; the code's `strip("'")`
removes every leading and trailing quote and stores `x`. -/
theorem C6_counterexample :
    (read_zusi_line noContexts false ("K = ''x''".toList)).map
        (fun e => e.value) = some ("x".toList) ∧
    ("x".toList : Str) ≠ "'x'".toList :=
  ⟨rfl, by decide⟩

/-- C6 (amended).  For every Zusi record line splitting into key `K` and raw
value `v`: leading/trailing space counts are recorded as claimed, the quote
flags are the single first/last-character checks (`rightquote` only when the
length exceeds 1), but the stored value is the space-stripped remainder with
EVERY leading and trailing quote character removed (Python `strip("'")`), not
just one per side — the remainder splits as quote-replicate ++ value ++
quote-replicate and the stored value neither starts nor ends with a quote. -/
theorem C6_value_parsing (line K v : Str) (e : TranslationEntry)
    (hsplit : splitFirst (" = ".toList) (pyStrip crlfP line) = some (K, v))
    (hparse : read_zusi_line noContexts false line = some e) :
    e.key = K ∧
    e.leftspaces = (v.takeWhile spaceP).length ∧
    e.rightspaces = (List.rtakeWhile spaceP v).length ∧
    (e.leftquote = true ↔
      (pyStrip spaceP v ≠ [] ∧ (pyStrip spaceP v).head? = some '\'')) ∧
    (e.rightquote = true ↔
      (1 < (pyStrip spaceP v).length ∧ (pyStrip spaceP v).getLast? = some '\'')) ∧
    (∃ a b, pyStrip spaceP v =
      List.replicate a '\'' ++ e.value ++ List.replicate b '\'') ∧
    (∀ c, e.value.head? = some c → c ≠ '\'') ∧
    (∀ c, e.value.getLast? = some c → c ≠ '\'') := by
  rw [read_zusi_line, hsplit] at hparse
  simp only [Bool.false_and, Bool.false_eq_true, if_false, Option.some.injEq] at hparse
  subst hparse
  refine ⟨rfl, ?_, ?_, ?_, ?_, ?_, ?_, ?_⟩
  · exact length_sub_dropWhile spaceP v
  · exact length_sub_rdropWhile spaceP v
  · simp
  · simp
  · have hdec := pyStrip_decomposition quoteP (pyStrip spaceP v)
    refine ⟨((pyStrip spaceP v).takeWhile quoteP).length,
      (List.rtakeWhile quoteP ((pyStrip spaceP v).dropWhile quoteP)).length, ?_⟩
    have h1 : (pyStrip spaceP v).takeWhile quoteP =
        List.replicate ((pyStrip spaceP v).takeWhile quoteP).length '\'' :=
      eq_replicate_quote _ (fun c hc => List.mem_takeWhile_imp hc)
    have h2 : List.rtakeWhile quoteP ((pyStrip spaceP v).dropWhile quoteP) =
        List.replicate
          (List.rtakeWhile quoteP ((pyStrip spaceP v).dropWhile quoteP)).length '\'' :=
      eq_replicate_quote _ (fun c hc => List.mem_rtakeWhile_imp hc)
    rw [← h1, ← h2]
    exact hdec
  · intro c hc
    intro hcc
    have := pyStrip_head_not quoteP (pyStrip spaceP v)
      (by intro hemp; rw [hemp] at hc; simp at hc) c hc
    rw [hcc] at this
    simp [quoteP] at this
  · intro c hc
    intro hcc
    have := pyStrip_getLast_not quoteP (pyStrip spaceP v)
      (by intro hemp; rw [hemp] at hc; simp at hc) c hc
    rw [hcc] at this
    simp [quoteP] at this

/-- C6 witness: the amended parsing characterization instantiated on the
concrete line `K = ''x''`. -/
theorem C6_value_parsing_witness :
    splitFirst (" = ".toList) (pyStrip crlfP ("K = ''x''".toList)) =
      some ("K".toList, "''x''".toList) ∧
    read_zusi_line noContexts false ("K = ''x''".toList) =
      some ⟨"K".toList, "x".toList, "x".toList, PyCtx.s [], true, true, 0, 0, none⟩ ∧
    (("K".toList : Str) = "K".toList ∧
      (0 : Nat) = (("''x''".toList : Str).takeWhile spaceP).length ∧
      (0 : Nat) = (List.rtakeWhile spaceP ("''x''".toList : Str)).length ∧
      (true = true ↔
        (pyStrip spaceP ("''x''".toList) ≠ [] ∧
          (pyStrip spaceP ("''x''".toList)).head? = some '\'')) ∧
      (true = true ↔
        (1 < (pyStrip spaceP ("''x''".toList)).length ∧
          (pyStrip spaceP ("''x''".toList)).getLast? = some '\'')) ∧
      (∃ a b, pyStrip spaceP ("''x''".toList) =
        List.replicate a '\'' ++ "x".toList ++ List.replicate b '\'') ∧
      (∀ c, ("x".toList : Str).head? = some c → c ≠ '\'') ∧
      (∀ c, ("x".toList : Str).getLast? = some c → c ≠ '\'')) :=
  ⟨rfl, rfl,
    C6_value_parsing ("K = ''x''".toList) ("K".toList) ("''x''".toList)
      ⟨"K".toList, "x".toList, "x".toList, PyCtx.s [], true, true, 0, 0, none⟩
      rfl rfl⟩

/-- C7 counterexample.  The claim demands identical quoting metadata from the
first cycle on, but parsing `K = 'abc'` records `leftquote = true` while the
reparse of the canonical serialization records `leftquote = false` (the writer
drops the quotes). -/
theorem C7_counterexample :
    (read_zusi_line noContexts false ("K = 'abc'".toList)).map
        (fun e => e.leftquote) = some true ∧
    ((read_zusi_line noContexts false ("K = 'abc'".toList)).bind zusiStep).map
        (fun e => e.leftquote) = some false ∧
    some true ≠ some false :=
  ⟨rfl, rfl, by decide⟩

/-- C7 (amended).  For `KEY = 'VALUE'` lines whose VALUE carries no
leading/trailing spaces or quotes, the parse-serialize cycle is idempotent
from the second cycle on: cycle 1 records `leftquote = rightquote = true`,
cycle 2 yields the same key and value with cleared quote flags, and every
further cycle reproduces cycle 2 exactly (the writer's output is a fixpoint);
the claim's "from the first cycle on" fails only in the quote flags. -/
theorem C7_roundtrip_stable_from_second_cycle (K V : Str)
    (h0strip : pyStrip crlfP (K ++ " = ".toList ++ ('\'' :: (V ++ ['\'']))) =
      K ++ " = ".toList ++ ('\'' :: (V ++ ['\''])))
    (h0split : splitFirst (" = ".toList)
        (K ++ " = ".toList ++ ('\'' :: (V ++ ['\'']))) =
      some (K, '\'' :: (V ++ ['\''])))
    (h1strip : pyStrip crlfP (K ++ " = ".toList ++ V) = K ++ " = ".toList ++ V)
    (h1split : splitFirst (" = ".toList) (K ++ " = ".toList ++ V) = some (K, V))
    (hVs1 : V.dropWhile spaceP = V) (hVs2 : List.rdropWhile spaceP V = V)
    (hVq1 : V.dropWhile quoteP = V) (hVq2 : List.rdropWhile quoteP V = V) :
    read_zusi_line noContexts false (K ++ " = ".toList ++ ('\'' :: (V ++ ['\'']))) =
      some ⟨K, V, V, PyCtx.s [], true, true, 0, 0, none⟩ ∧
    zusiStep ⟨K, V, V, PyCtx.s [], true, true, 0, 0, none⟩ =
      some ⟨K, V, V, PyCtx.s [], false, false, 0, 0, none⟩ ∧
    (∀ n, zusiStepN n ⟨K, V, V, PyCtx.s [], false, false, 0, 0, none⟩ =
      some ⟨K, V, V, PyCtx.s [], false, false, 0, 0, none⟩) := by
  have hwrite1 : write_zusi_line ⟨K, V, V, PyCtx.s [], true, true, 0, 0, none⟩ =
      K ++ " = ".toList ++ V := write_zero_spaces _ rfl
  have hwrite2 : write_zusi_line ⟨K, V, V, PyCtx.s [], false, false, 0, 0, none⟩ =
      K ++ " = ".toList ++ V := write_zero_spaces _ rfl
  have hparse1 : read_zusi_line noContexts false (K ++ " = ".toList ++ V) =
      some ⟨K, V, V, PyCtx.s [], false, false, 0, 0, none⟩ :=
    parse_unquoted_line K V h1strip h1split hVs1 hVs2 hVq1 hVq2
  have hfix : zusiStep ⟨K, V, V, PyCtx.s [], false, false, 0, 0, none⟩ =
      some ⟨K, V, V, PyCtx.s [], false, false, 0, 0, none⟩ := by
    rw [zusiStep, hwrite2, hparse1]
  refine ⟨parse_quoted_line K V h0strip h0split hVq1 hVq2, ?_, ?_⟩
  · rw [zusiStep, hwrite1, hparse1]
  · intro n
    induction n with
    | zero => rfl
    | succ m ih => rw [zusiStepN, hfix, Option.some_bind]; exact ih

/-- C7 witness: the stabilization theorem instantiated on `Key = 'abc'`. -/
theorem C7_roundtrip_witness :
    splitFirst (" = ".toList)
        ("Key".toList ++ " = ".toList ++ ('\'' :: ("abc".toList ++ ['\'']))) =
      some ("Key".toList, '\'' :: ("abc".toList ++ ['\''])) ∧
    (read_zusi_line noContexts false
        ("Key".toList ++ " = ".toList ++ ('\'' :: ("abc".toList ++ ['\'']))) =
      some ⟨"Key".toList, "abc".toList, "abc".toList, PyCtx.s [], true, true, 0, 0, none⟩ ∧
    zusiStep ⟨"Key".toList, "abc".toList, "abc".toList, PyCtx.s [], true, true, 0, 0, none⟩ =
      some ⟨"Key".toList, "abc".toList, "abc".toList, PyCtx.s [], false, false, 0, 0, none⟩ ∧
    (∀ n, zusiStepN n
        ⟨"Key".toList, "abc".toList, "abc".toList, PyCtx.s [], false, false, 0, 0, none⟩ =
      some ⟨"Key".toList, "abc".toList, "abc".toList, PyCtx.s [], false, false, 0, 0, none⟩)) :=
  ⟨rfl,
    C7_roundtrip_stable_from_second_cycle ("Key".toList) ("abc".toList)
      rfl rfl rfl rfl rfl rfl rfl rfl⟩

/-- The `add_shortcut` overflow scenario for a generic tail position `N`: on a
string of `N` copies of `x` followed by one `a`, the only occurrence of `a`
sits at position `N` with weight `800 + N / 10`; when that equals 9999 the
scan never adopts it and `add_shortcut` raises. -/
theorem add_shortcut_tail_overflow (N : Nat)
    (h2 : 800 + N / 10 = 9999) :
    N ∈ occurrences 'a' (lowerStr (List.replicate N 'x' ++ ['a'])) ∧
    add_shortcut (List.replicate N 'x' ++ ['a']) 'a' = none := by
  have hlow : lowerStr (List.replicate N 'x' ++ ['a']) =
      List.replicate N 'x' ++ ['a'] := by
    rw [lowerStr, List.map_append, List.map_replicate,
      show Char.toLower 'x' = 'x' from rfl,
      show List.map Char.toLower ['a'] = ['a'] from rfl]
  have hlenrep : (List.replicate N 'x' : Str).length = N := List.length_replicate N 'x'
  have hlen : (List.replicate N 'x' ++ ['a'] : Str).length = N + 1 := by
    rw [List.length_append, hlenrep]
    rfl
  have hgetE_last : (List.replicate N 'x' ++ ['a'] : Str)[N]? = some 'a' := by
    rw [List.getElem?_append_right (by rw [hlenrep]), hlenrep, Nat.sub_self]
    rfl
  have hgetE_lt : ∀ i, i < N → (List.replicate N 'x' ++ ['a'] : Str)[i]? = some 'x' := by
    intro i hi
    rw [List.getElem?_append_left (by rw [hlenrep]; exact hi), List.getElem?_replicate,
      if_pos hi]
  have hocc : occurrences 'a' (List.replicate N 'x' ++ ['a']) = [N] := by
    rw [occurrences, hlen, List.range_succ, List.filter_append]
    have hnil : List.filter
        (fun i => decide ((List.replicate N 'x' ++ ['a'] : Str).get? i = some 'a'))
        (List.range N) = [] := by
      rw [List.filter_eq_nil_iff]
      intro i hi
      rw [List.mem_range] at hi
      rw [List.get?_eq_getElem?, hgetE_lt i hi]
      simp
    rw [hnil, List.nil_append, List.filter_cons_of_pos]
    · rfl
    · rw [List.get?_eq_getElem?, hgetE_last]
      simp
  have hw : get_shortcut_weight (List.replicate N 'x' ++ ['a']) N none none
      = 9999 := by
    have hgetD : (List.replicate N 'x' ++ ['a'] : Str).getD N ' ' = 'a' := by
      rw [List.getD_eq_getElem?_getD, hgetE_last]
      rfl
    have hgetDprev : (List.replicate N 'x' ++ ['a'] : Str).getD (N - 1) ' ' = 'x' := by
      rw [List.getD_eq_getElem?_getD, hgetE_lt (N - 1) (by omega)]
      rfl
    have hN0 : decide (N = 0) = false := decide_eq_false (by omega)
    rw [get_shortcut_weight]
    simp only [hgetD, hgetDprev, hN0,
      show decide (('x' : Char) ∈ " -_+".toList) = false from rfl,
      Bool.or_false, Bool.false_eq_true, if_false]
    rw [if_neg (show ¬(('a' : Char).toUpper = 'a') from by decide),
      if_pos (show ('a' : Char).toLower ∈ alphabetStr ++ [] from by decide)]
    exact h2
  refine ⟨?_, ?_⟩
  · rw [hlow, hocc]
    exact List.mem_singleton.mpr rfl
  · rw [add_shortcut, hlow, hocc, scanMin, hw, if_neg (Nat.lt_irrefl 9999), scanMin]

/-- C10 counterexample.  The claim promises an insertion for every occurrence
of the shortcut letter, but the weight includes `pos // 10`, so at position
91990 a lowercase non-word-start occurrence weighs exactly `800 + 9199 = 9999`
and never beats the loop's initial minimum of 9999: on a 91991-character
string whose only `a` is last, `add_shortcut` raises (returns `none`) even
though the letter occurs in the lowercased string. -/
theorem C10_counterexample :
    91990 ∈ occurrences 'a' (lowerStr (List.replicate 91990 'x' ++ ['a'])) ∧
    add_shortcut (List.replicate 91990 'x' ++ ['a']) 'a' = none :=
  add_shortcut_tail_overflow 91990 (by norm_num)

/-- C10 (amended).  For every string and shortcut letter occurring in the
lowercased string at some position of weight below 9999 (the loop's initial
minimum, reachable by genuine occurrences only from position 86990 on via the
`pos // 10` term), `add_shortcut` inserts exactly one `&` — removing it at the
same index restores the input — at an occurrence of the letter whose default
weight is minimal, the earliest such occurrence on ties; without such a
position the code raises even though the letter occurs. -/
theorem C10_add_shortcut_inserts_at_min (s : Str) (c : Char)
    (h : ∃ p ∈ occurrences c (lowerStr s),
      get_shortcut_weight s p none none < 9999) :
    ∃ p, add_shortcut s c = some (s.take p ++ '&' :: s.drop p) ∧
      p ∈ occurrences c (lowerStr s) ∧
      (s.take p ++ '&' :: s.drop p).eraseIdx p = s ∧
      (∀ q ∈ occurrences c (lowerStr s),
        get_shortcut_weight s p none none ≤ get_shortcut_weight s q none none) ∧
      (∀ q ∈ occurrences c (lowerStr s),
        get_shortcut_weight s q none none = get_shortcut_weight s p none none →
          p ≤ q) := by
  obtain ⟨p0, hp0mem, hp0w⟩ := h
  have hspec := scanMin_spec s (occurrences c (lowerStr s)) 9999 none
    (by intro _ h; cases h) (by intro _ h; cases h)
    (occurrences_sorted c (lowerStr s))
  cases hres : scanMin s (occurrences c (lowerStr s)) 9999 none with
  | none =>
    obtain ⟨_, hall⟩ := hspec.1 hres
    exact absurd (hall p0 hp0mem) (Nat.not_le_of_lt hp0w)
  | some p =>
    obtain ⟨hmem, hminall, hties⟩ := hspec.2 p hres
    have hpmem : p ∈ occurrences c (lowerStr s) := by
      rcases hmem with ⟨hm, _⟩ | ⟨habs, _⟩
      · exact hm
      · cases habs
    have hplen : p < s.length := by
      have := (mem_occurrences c (lowerStr s) p).mp hpmem
      simpa [lowerStr] using this.1
    refine ⟨p, ?_, hpmem, ?_, hminall, hties⟩
    · rw [add_shortcut, hres]
    · have htake : (s.take p).length = p := by
        rw [List.length_take]
        exact Nat.min_eq_left (Nat.le_of_lt hplen)
      rw [List.eraseIdx_eq_take_drop_succ]
      have h1 : (s.take p ++ '&' :: s.drop p).take p = s.take p := by
        have h := List.take_left (s.take p) ('&' :: s.drop p)
        rwa [htake] at h
      have h2 : (s.take p ++ '&' :: s.drop p).drop (p + 1) = s.drop p := by
        have h := @List.drop_append Char (s.take p) ('&' :: s.drop p) 1
        rw [htake] at h
        simpa using h
      rw [h1, h2, List.take_append_drop]

/-- C10 witness: the amended insertion theorem instantiated on `"Open"` and
letter `o` (which occurs at position 0 with weight 500). -/
theorem C10_add_shortcut_witness :
    (∃ p ∈ occurrences 'o' (lowerStr ("Open".toList)),
      get_shortcut_weight ("Open".toList) p none none < 9999) ∧
    (∃ p, add_shortcut ("Open".toList) 'o' =
        some (("Open".toList).take p ++ '&' :: ("Open".toList).drop p) ∧
      p ∈ occurrences 'o' (lowerStr ("Open".toList)) ∧
      (("Open".toList).take p ++ '&' :: ("Open".toList).drop p).eraseIdx p
        = "Open".toList ∧
      (∀ q ∈ occurrences 'o' (lowerStr ("Open".toList)),
        get_shortcut_weight ("Open".toList) p none none ≤
          get_shortcut_weight ("Open".toList) q none none) ∧
      (∀ q ∈ occurrences 'o' (lowerStr ("Open".toList)),
        get_shortcut_weight ("Open".toList) q none none =
          get_shortcut_weight ("Open".toList) p none none → p ≤ q)) :=
  ⟨by decide, C10_add_shortcut_inserts_at_min ("Open".toList) 'o' (by decide)⟩

/-- The empty candidate list produces no solver pairs. -/
theorem munkres_matrix_nil (letters : List Char) :
    munkresCompute (matrix_of [] letters) = [] := by
  obtain ⟨σ, _, _, heq⟩ := munkresCompute_spec (matrix_of [] letters)
  rw [heq]
  rfl

/-- C8.  (Modelled munkres solver; see `munkresCompute`.)  Whenever
`generate_shortcuts` succeeds: every processed group's assignment run also
succeeds with every solver-assigned cost different from 9999 (an assigned
9999 cost aborts the run with the fatal `TranslationException` naming the
candidate, by definition of `assignStep`); within each group no two
candidates receive the same letter; every assigned letter occurs in its
candidate's lowercased translated value; and every binding of the returned
mapping was written by some group's assignment for an entry with that key. -/
theorem C8_generate_shortcuts_sound (mf tf et : TranslationFile)
    (groups : List (List Str)) (res : List (Str × Char))
    (h : generate_shortcuts mf tf et groups = Except.ok res) :
    (∀ g ∈ groups, ∃ asg, group_assignments mf tf et g = Except.ok asg ∧
      (asg.map Prod.snd).Nodup ∧
      (∀ pr ∈ asg, pr.2 ∈ lowerStr pr.1.value) ∧
      (∀ cands, candidates_of_group mf tf et g = Except.ok cands →
        ∀ ij ∈ munkresCompute (matrix_of cands (letterset_of cands)),
          ∀ cost, matrixAt (matrix_of cands (letterset_of cands)) ij = some cost →
            cost ≠ 9999)) ∧
    (∀ k c, adictFind res k = some c →
      ∃ g ∈ groups, ∃ asg, group_assignments mf tf et g = Except.ok asg ∧
        ∃ pr ∈ asg, pr.1.key = k ∧ pr.2 = c) := by
  rw [generate_shortcuts] at h
  obtain ⟨hall, horig⟩ := generateFold_ok mf tf et groups [] res h
  constructor
  · intro g hg
    obtain ⟨asg, hasg⟩ := hall g hg
    obtain ⟨cands, hc, hcase⟩ := group_assignments_ok mf tf et g asg hasg
    rcases hcase with ⟨hemp, hasgnil⟩ | ⟨hemp, hmap, hcosts⟩
    · refine ⟨asg, hasg, ?_, ?_, ?_⟩
      · rw [hasgnil]
        exact List.nodup_nil
      · rw [hasgnil]
        intro pr hpr
        cases hpr
      · intro cands' hc' ij hij cost hcost
        rw [hc] at hc'
        cases hc'
        have hcnil : cands = [] := by
          cases cands with
          | nil => rfl
          | cons a t => rw [List.isEmpty_cons] at hemp; cases hemp
        rw [hcnil, munkres_matrix_nil] at hij
        cases hij
    · have hne : cands ≠ [] := by
        intro hcc
        rw [hcc] at hemp
        cases hemp
      obtain ⟨hrows, hcols⟩ := matrix_of_dims cands (letterset_of cands) hne
      refine ⟨asg, hasg, ?_, ?_, ?_⟩
      · rw [hmap, List.map_map]
        have hsnd := munkres_snd_nodup (matrix_of cands (letterset_of cands))
        rw [show ((munkresCompute (matrix_of cands (letterset_of cands))).map
              (Prod.snd ∘ (fun ij : Nat × Nat =>
                (((cands.get? ij.1).getD dummyCand).1,
                  ((letterset_of cands).get? ij.2).getD ' '))))
            = ((munkresCompute (matrix_of cands (letterset_of cands))).map
                Prod.snd).map
              (fun j => ((letterset_of cands).get? j).getD ' ') from by
          rw [List.map_map]
          rfl]
        refine List.Nodup.map_on ?_ hsnd
        intro x hx y hy hxy
        obtain ⟨ijx, hijx, hxeq⟩ := List.mem_map.mp hx
        obtain ⟨ijy, hijy, hyeq⟩ := List.mem_map.mp hy
        have hxb := (munkres_mem_bounds _ _ hijx).2
        have hyb := (munkres_mem_bounds _ _ hijy).2
        rw [hcols] at hxb hyb
        rw [← hxeq, ← hyeq] at hxy ⊢
        by_contra hne2
        refine (nodup_getD_ne (letterset_of cands) ' ' (letterset_of_nodup cands)
          ijx.2 ijy.2 hxb hyb hne2) ?_
        rw [show (letterset_of cands).getD ijx.2 ' ' =
            ((letterset_of cands).get? ijx.2).getD ' ' from by
          rw [List.getD, List.get?_eq_getElem?]]
        rw [show (letterset_of cands).getD ijy.2 ' ' =
            ((letterset_of cands).get? ijy.2).getD ' ' from by
          rw [List.getD, List.get?_eq_getElem?]]
        exact hxy
      · intro pr hpr
        rw [hmap] at hpr
        obtain ⟨ij, hij, hpreq⟩ := List.mem_map.mp hpr
        obtain ⟨hib, hjb⟩ := munkres_mem_bounds _ _ hij
        rw [hrows] at hib
        rw [hcols] at hjb
        have hic : cands.get? ij.1 = some (cands.get ⟨ij.1, hib⟩) :=
          List.get?_eq_get hib
        have hjc : (letterset_of cands).get? ij.2 =
            some ((letterset_of cands).get ⟨ij.2, hjb⟩) := List.get?_eq_get hjb
        have hmx := matrixAt_matrix_of cands (letterset_of cands) ij.1 ij.2 hib hjb
        have hminne := hcosts ij hij _ hmx
        have hmem := get_min_ne_imp_mem _ _ _ _ hminne
        rw [← hpreq]
        simp only [hic, hjc, Option.getD_some]
        exact hmem
      · intro cands' hc' ij hij cost hcost
        rw [hc] at hc'
        cases hc'
        exact hcosts ij hij cost hcost
  · intro k c hkc
    rcases horig k c hkc with h1 | h1
    · rw [adictFind] at h1
      simp [List.find?] at h1
    · exact h1

/-- C8 witness: the soundness theorem instantiated on a one-group scenario
(master `ACaption = &Ab`, translation `ab`, empty prior translation), whose
run succeeds assigning letter `a`. -/
theorem C8_generate_shortcuts_witness :
    generate_shortcuts shortcutMaster shortcutTranslation emptyFile
        [["ACaption".toList]] = Except.ok [("ACaption".toList, 'a')] ∧
    ((∀ g ∈ [["ACaption".toList]], ∃ asg,
      group_assignments shortcutMaster shortcutTranslation emptyFile g =
        Except.ok asg ∧
      (asg.map Prod.snd).Nodup ∧
      (∀ pr ∈ asg, pr.2 ∈ lowerStr pr.1.value) ∧
      (∀ cands, candidates_of_group shortcutMaster shortcutTranslation emptyFile g =
          Except.ok cands →
        ∀ ij ∈ munkresCompute (matrix_of cands (letterset_of cands)),
          ∀ cost, matrixAt (matrix_of cands (letterset_of cands)) ij = some cost →
            cost ≠ 9999)) ∧
    (∀ k c, adictFind [("ACaption".toList, 'a')] k = some c →
      ∃ g ∈ [["ACaption".toList]], ∃ asg,
        group_assignments shortcutMaster shortcutTranslation emptyFile g =
          Except.ok asg ∧
        ∃ pr ∈ asg, pr.1.key = k ∧ pr.2 = c)) :=
  ⟨by rfl, C8_generate_shortcuts_sound shortcutMaster shortcutTranslation emptyFile
    [["ACaption".toList]] [("ACaption".toList, 'a')] (by rfl)⟩

/-- C9 counterexample.  Reading a Zusi file containing the line `K = v` twice
leaves two entries under `K`: `entries[key]` is a Python set of objects
without `__eq__`/`__hash__`, so the two structurally identical but distinct
objects do not collapse, contradicting the claimed singleton. -/
theorem C9_counterexample :
    ((emptyFile.read_from_zusi noContexts false
        [("K = v".toList), ("K = v".toList)]).entriesAt ("K".toList)).length = 2 ∧
    (2 : Nat) ≠ 1 := by
  exact ⟨rfl, by decide⟩

/-- C9 (amended).  `entries[key]` is a set of object identities and never
collapses structurally identical entries: every append of a (freshly
allocated) entry grows the collection under its key by one and leaves other
keys untouched, and reading a Zusi file containing the same `KEY = VALUE` line
twice yields a two-element set under `KEY`. -/
theorem C9_append_never_collapses :
    (∀ (tf : TranslationFile) (e : TranslationEntry),
      (tf.append e).entriesAt e.key = tf.entriesAt e.key ++ [e]) ∧
    (∀ (tf : TranslationFile) (e : TranslationEntry) (k : Str), k ≠ e.key →
      (tf.append e).entriesAt k = tf.entriesAt k) ∧
    ((emptyFile.read_from_zusi noContexts false
        [("K = v".toList), ("K = v".toList)]).entriesAt ("K".toList)).length = 2 := by
  refine ⟨?_, ?_, rfl⟩
  · intro tf e
    simp [TranslationFile.append, TranslationFile.entriesAt, List.filter_append]
  · intro tf e k hk
    simp [TranslationFile.append, TranslationFile.entriesAt, List.filter_append,
      Ne.symm hk]

end TransHelper
